import Mathlib

/-!
# Verification of the Poisson discretization-and-direct-solve engine (`src/THE.py`)

Shallow embedding of the `Problem` class: grid indexing, assembly of the
discrete Laplacian with Dirichlet elimination, reverse-Cuthill–McKee
reordering, Cholesky factorization, triangular solves, fill-in analysis and
the exact-solution oracle.  Matrix entries are exact integers (the assembled
entries are 0, ±1, 4 or 6); right-hand sides use `Real.sin` symbolically, so
all results are statements about the exact-arithmetic behaviour of the code.

The file is organised as: all definitions first, then the theorems.
-/

namespace THE

/-! ## Definitions: grid indexer (src/THE.py lines 125–157) -/

/-- `Problem.get_neighbors_2d` (lines 125–137): axis-aligned in-bounds
neighbors of linear index `p` on an `n × n` grid, in source order
(left, right, bottom, top). -/
def get_neighbors_2d (p n_elements : ℕ) : List ℕ :=
  let i := p / n_elements
  let j := p % n_elements
  (if 0 < j then [p - 1] else []) ++
    (if j < n_elements - 1 then [p + 1] else []) ++
      (if 0 < i then [p - n_elements] else []) ++
        (if i < n_elements - 1 then [p + n_elements] else [])

/-- `Problem.get_neighbors_3d` (lines 139–157): axis-aligned in-bounds
neighbors of linear index `p` on an `n × n × n` grid, in source order
(back, front, left, right, bottom, top). -/
def get_neighbors_3d (p n_elements : ℕ) : List ℕ :=
  let n2 := n_elements * n_elements
  let i := p / n2
  let j := (p % n2) / n_elements
  let k := p % n_elements
  (if 0 < k then [p - 1] else []) ++
    (if k < n_elements - 1 then [p + 1] else []) ++
      (if 0 < j then [p - n_elements] else []) ++
        (if j < n_elements - 1 then [p + n_elements] else []) ++
          (if 0 < i then [p - n2] else []) ++
            (if i < n_elements - 1 then [p + n2] else [])

/-- The boundary test of the 2D assembly loop (line 39): some grid coordinate
of `p` is 0 or `n - 1`.  The loop variables satisfy `i = p / n`, `j = p % n`. -/
def isBoundary2d (n p : ℕ) : Bool :=
  p / n == 0 || p / n == n - 1 || p % n == 0 || p % n == n - 1

/-- The boundary test of the 3D assembly loop (lines 89–91). -/
def isBoundary3d (n p : ℕ) : Bool :=
  p / (n * n) == 0 || p / (n * n) == n - 1 ||
    (p % (n * n)) / n == 0 || (p % (n * n)) / n == n - 1 ||
      p % n == 0 || p % n == n - 1

/-- Specification-side adjacency: the grid points with linear indices `p`, `q`
differ by exactly 1 in exactly one of the two coordinates `(i, j) = (· / n, · % n)`. -/
def adjacent2d (n p q : ℕ) : Prop :=
  (q / n = p / n ∧ (q % n = p % n + 1 ∨ p % n = q % n + 1)) ∨
    (q % n = p % n ∧ (q / n = p / n + 1 ∨ p / n = q / n + 1))

/-- Specification-side adjacency in 3D, on coordinates
`(i, j, k) = (· / n², (· % n²) / n, · % n)`. -/
def adjacent3d (n p q : ℕ) : Prop :=
  (q / (n * n) = p / (n * n) ∧ (q % (n * n)) / n = (p % (n * n)) / n ∧
      (q % n = p % n + 1 ∨ p % n = q % n + 1)) ∨
    (q / (n * n) = p / (n * n) ∧ q % n = p % n ∧
      ((q % (n * n)) / n = (p % (n * n)) / n + 1 ∨
        (p % (n * n)) / n = (q % (n * n)) / n + 1)) ∨
      ((q % (n * n)) / n = (p % (n * n)) / n ∧ q % n = p % n ∧
        (q / (n * n) = p / (n * n) + 1 ∨ p / (n * n) = q / (n * n) + 1))

instance (n p q : ℕ) : Decidable (adjacent2d n p q) := by
  unfold adjacent2d; infer_instance

instance (n p q : ℕ) : Decidable (adjacent3d n p q) := by
  unfold adjacent3d; infer_instance

/-! ## Definitions: system assembly (src/THE.py lines 20–123) -/

/-- Grid spacing `1.0 / (n_elements + 1)` (line 21). -/
noncomputable def spacing (n_elements : ℕ) : ℝ := 1 / ((n_elements : ℝ) + 1)

/-- The hard-coded 2D source function `f(x, y)` (lines 29–30). -/
noncomputable def f_2d (x y : ℝ) : ℝ := (x ^ 2 + y ^ 2) * Real.sin (x * y)

/-- The hard-coded 2D boundary/exact function `u_0 = sin(x·y)` (lines 41, 168). -/
noncomputable def u0_2d (x y : ℝ) : ℝ := Real.sin (x * y)

/-- The hard-coded 3D source function `f(x, y, z)` (lines 77–78). -/
noncomputable def f_3d (x y z : ℝ) : ℝ :=
  (x ^ 2 * y ^ 2 + z ^ 2 * y ^ 2 + x ^ 2 * z ^ 2) * Real.sin (x * y * z)

/-- The hard-coded 3D boundary/exact function `u_0 = sin(x·y·z)` (lines 93, 179). -/
noncomputable def u0_3d (x y z : ℝ) : ℝ := Real.sin (x * y * z)

/-- Physical x-coordinate of linear index `p` in 2D: `(i + 1) * spacing` (line 35). -/
noncomputable def xcoord2d (n p : ℕ) : ℝ := ((p / n : ℕ) + 1 : ℝ) * spacing n

/-- Physical y-coordinate of linear index `p` in 2D: `(j + 1) * spacing` (line 36). -/
noncomputable def ycoord2d (n p : ℕ) : ℝ := ((p % n : ℕ) + 1 : ℝ) * spacing n

/-- Physical x-coordinate of linear index `p` in 3D (line 84). -/
noncomputable def xcoord3d (n p : ℕ) : ℝ := ((p / (n * n) : ℕ) + 1 : ℝ) * spacing n

/-- Physical y-coordinate of linear index `p` in 3D (line 85). -/
noncomputable def ycoord3d (n p : ℕ) : ℝ := (((p % (n * n)) / n : ℕ) + 1 : ℝ) * spacing n

/-- Physical z-coordinate of linear index `p` in 3D (line 86). -/
noncomputable def zcoord3d (n p : ℕ) : ℝ := ((p % n : ℕ) + 1 : ℝ) * spacing n

/-- State of the 2D matrix `A` right after the assembly loop (lines 32–51),
before the boundary rows/columns are zeroed out.  Row `p` of a boundary point
holds only the diagonal 1; an interior row holds the diagonal 4 and `-1` at
each in-bounds neighbor (boundary neighbors included, as in the source). -/
def A1_2d (n : ℕ) (p q : ℕ) : ℤ :=
  if isBoundary2d n p then (if q = p then 1 else 0)
  else if q = p then 4
  else if q ∈ get_neighbors_2d p n then -1 else 0

/-- State of the 3D matrix `A` right after the assembly loop (lines 80–103). -/
def A1_3d (n : ℕ) (p q : ℕ) : ℤ :=
  if isBoundary3d n p then (if q = p then 1 else 0)
  else if q = p then 6
  else if q ∈ get_neighbors_3d p n then -1 else 0

/-- `f_vector` right after the 2D assembly loop (lines 43, 51): `u_0` at a
boundary point, `f(x, y) * spacing**2` at an interior point. -/
noncomputable def rhs0_2d (n : ℕ) (p : ℕ) : ℝ :=
  if isBoundary2d n p then u0_2d (xcoord2d n p) (ycoord2d n p)
  else f_2d (xcoord2d n p) (ycoord2d n p) * spacing n ^ 2

/-- `f_vector` right after the 3D assembly loop (lines 95, 103). -/
noncomputable def rhs0_3d (n : ℕ) (p : ℕ) : ℝ :=
  if isBoundary3d n p then u0_3d (xcoord3d n p) (ycoord3d n p) (zcoord3d n p)
  else f_3d (xcoord3d n p) (ycoord3d n p) (zcoord3d n p) * spacing n ^ 2

/-- `f_vector` after the 2D elimination pass (lines 53–60): for each boundary
`p` and each neighbor `q` of `p` with `A[q, p] ≠ 0`, subtract
`A[q, p] * u_0(p)`.  The pass only reads boundary entries of `f_vector`
(never written by the pass itself), so the subtractions add up independently. -/
noncomputable def rhs_2d (n : ℕ) (q : ℕ) : ℝ :=
  rhs0_2d n q -
    ∑ p ∈ Finset.range (n * n),
      if isBoundary2d n p ∧ q ∈ get_neighbors_2d p n ∧ A1_2d n q p ≠ 0 then
        (A1_2d n q p : ℝ) * rhs0_2d n p
      else 0

/-- `f_vector` after the 3D elimination pass (lines 105–112). -/
noncomputable def rhs_3d (n : ℕ) (q : ℕ) : ℝ :=
  rhs0_3d n q -
    ∑ p ∈ Finset.range (n * n * n),
      if isBoundary3d n p ∧ q ∈ get_neighbors_3d p n ∧ A1_3d n q p ≠ 0 then
        (A1_3d n q p : ℝ) * rhs0_3d n p
      else 0

/-- The final 2D matrix after the zeroing pass (lines 62–66): every boundary
row and column is zeroed except for a unit diagonal. -/
def matrix_2d (n : ℕ) (p q : ℕ) : ℤ :=
  if isBoundary2d n p ∨ isBoundary2d n q then (if p = q then 1 else 0)
  else A1_2d n p q

/-- The final 3D matrix after the zeroing pass (lines 114–118). -/
def matrix_3d (n : ℕ) (p q : ℕ) : ℤ :=
  if isBoundary3d n p ∨ isBoundary3d n q then (if p = q then 1 else 0)
  else A1_3d n p q

/-- `Problem.build_matrix_and_rhs` (lines 20–123): returns the number of
unknowns, the matrix and the right-hand side; for a dimension other than 2 or
3 the source prints "Invalid dimension" and returns `(None, None)` (lines
121–123), modelled as `none`. -/
noncomputable def build_matrix_and_rhs (n_elements dimension : ℕ) :
    Option (ℕ × (ℕ → ℕ → ℤ) × (ℕ → ℝ)) :=
  if dimension = 2 then
    some (n_elements * n_elements, matrix_2d n_elements, rhs_2d n_elements)
  else if dimension = 3 then
    some (n_elements * n_elements * n_elements, matrix_3d n_elements, rhs_3d n_elements)
  else none

/-- `Problem.exact_solution` (lines 159–183): evaluates the manufactured
solution at every grid point; for a dimension other than 2 or 3 it prints
"Invalid dimension" and returns `None` (lines 181–183), modelled as `none`. -/
noncomputable def exact_solution (dimension n_elements : ℕ) : Option (ℕ → ℝ) :=
  if dimension = 2 then
    some fun p => u0_2d (xcoord2d n_elements p) (ycoord2d n_elements p)
  else if dimension = 3 then
    some fun p =>
      u0_3d (xcoord3d n_elements p) (ycoord3d n_elements p) (zcoord3d n_elements p)
  else none

/-! ## Definitions: Cholesky factorization and triangular solves
(src/THE.py lines 185–218) -/

/-- Entry `(i, j)` of the Cholesky factor, modelling the `np.linalg.cholesky`
call of `Problem.cholesky` (lines 185–190) in exact arithmetic by the standard
column recurrence (spec §4.4): `L[j,j] = sqrt(A[j,j] − Σ_{k<j} L[j,k]²)` and
`L[i,j] = (A[i,j] − Σ_{k<j} L[i,k]·L[j,k]) / L[j,j]` for `i > j`, zero above
the diagonal. -/
noncomputable def cholesky (A : ℕ → ℕ → ℝ) : ℕ → ℕ → ℝ
  | i, j =>
    if i < j then 0
    else if i = j then
      Real.sqrt (A j j - ∑ k : Fin j, cholesky A j k ^ 2)
    else
      (A i j - ∑ k : Fin j, cholesky A i k * cholesky A j k) / cholesky A j j
termination_by i j => i + j
decreasing_by
  · have := k.isLt; omega
  · have := k.isLt; omega
  · have := k.isLt; omega
  · omega

/-- `Problem.forward_substitution` (lines 192–198):
`y[i] = (b[i] − Σ_{k<i} L[i,k]·y[k]) / L[i,i]`, in increasing `i`. -/
def forward_substitution {F : Type} [Field F] {N : ℕ} (L : Matrix (Fin N) (Fin N) F)
    (b : Fin N → F) : Fin N → F
  | i =>
    (b i - ∑ k : Fin N, if h : k < i then L i k * forward_substitution L b k else 0) / L i i
termination_by i => i.val
decreasing_by exact h

/-- `Problem.backward_substitution` (lines 200–206):
`x[i] = (y[i] − Σ_{k>i} L_T[i,k]·x[k]) / L_T[i,i]`, in decreasing `i`. -/
def backward_substitution {F : Type} [Field F] {N : ℕ} (L_T : Matrix (Fin N) (Fin N) F)
    (y : Fin N → F) : Fin N → F
  | i =>
    (y i - ∑ k : Fin N, if h : i < k then L_T i k * backward_substitution L_T y k else 0) /
      L_T i i
termination_by i => N - i.val
decreasing_by have := k.isLt; have hik : i.val < k.val := h; omega

/-- `Problem.solve_cholesky` (lines 208–218), minus the wall-clock timings:
forward substitution with the stored factor, then backward substitution with
its transpose. -/
def solve_cholesky {F : Type} [Field F] {N : ℕ} (L : Matrix (Fin N) (Fin N) F)
    (b : Fin N → F) : Fin N → F :=
  backward_substitution L.transpose (forward_substitution L b)

/-! ## Definitions: reordering (src/THE.py lines 230–232) and fill-in
analysis (lines 220–228) -/

/-- Adjacency used by `scipy.sparse.csgraph.reverse_cuthill_mckee` in its
default `symmetric_mode=False`, which works on the pattern of `A + Aᵀ`. -/
def adjacencyB (A : ℕ → ℕ → ℤ) (v q : ℕ) : Bool :=
  decide (v ≠ q) && (decide (A v q ≠ 0) || decide (A q v ≠ 0))

/-- Degree of a node in the adjacency graph of `A` on `{0, …, N-1}`. -/
def degree (A : ℕ → ℕ → ℤ) (N v : ℕ) : ℕ :=
  ((List.range N).filter (fun q => adjacencyB A v q)).length

/-- Modelled from the spec (§4.3): the Cuthill–McKee breadth-first level
ordering computed by the external `scipy.sparse.csgraph.reverse_cuthill_mckee`
call (line 231), whose own code is not part of this repository.  Fuel-based
BFS: when the queue is empty the next unvisited node in index order seeds a
new component; dequeuing a node appends its unvisited neighbors, sorted by
degree, to both the visit order and the queue. -/
def cmRun (A : ℕ → ℕ → ℤ) (N : ℕ) : ℕ → List ℕ → List ℕ → List ℕ
  | 0, order, _ => order
  | fuel + 1, order, [] =>
    match (List.range N).filter (fun s => decide (s ∉ order)) with
    | [] => order
    | s :: _ => cmRun A N fuel (order ++ [s]) [s]
  | fuel + 1, order, v :: queue =>
    let nbrs := (List.range N).filter (fun q => adjacencyB A v q && decide (q ∉ order))
    let nbrsSorted := nbrs.insertionSort (fun a b => degree A N a ≤ degree A N b)
    cmRun A N fuel (order ++ nbrsSorted) (queue ++ nbrsSorted)

/-- The reverse Cuthill–McKee order: the Cuthill–McKee visit order, reversed
(modelling the result of line 231). -/
def rcm_order (A : ℕ → ℕ → ℤ) (N : ℕ) : List ℕ :=
  (cmRun A N (2 * N + 1) [] []).reverse

/-- `Problem.reorder` (lines 230–232): `matrix[rcm_order, :][:, rcm_order]`,
i.e. entry `(a, b)` of the result is entry `(rcm_order[a], rcm_order[b])` of
the stored matrix.  The method reads `self.matrix` and returns a new matrix;
it assigns no attribute. -/
def reorder (A : ℕ → ℕ → ℤ) (N : ℕ) : ℕ → ℕ → ℤ := fun a b =>
  A ((rcm_order A N).getD a a) ((rcm_order A N).getD b b)

/-- `scipy` sparse `.nnz`: number of stored nonzero entries, here the number
of nonzero entries of the `N × N` leading block. -/
def nnz (N : ℕ) (A : ℕ → ℕ → ℤ) : ℕ :=
  ((Finset.range N ×ˢ Finset.range N).filter fun pq => A pq.1 pq.2 ≠ 0).card

open Classical in
/-- `np.count_nonzero` on a dense real `N × N` matrix. -/
noncomputable def count_nonzero (N : ℕ) (M : ℕ → ℕ → ℝ) : ℕ :=
  ((Finset.range N ×ˢ Finset.range N).filter fun pq => M pq.1 pq.2 ≠ 0).card

/-! ## Definitions: the `Problem` object (src/THE.py lines 11–18) -/

/-- The attributes stored by `Problem.__init__` (lines 11–18), minus the two
wall-clock times. -/
structure Problem where
  n_elements : ℕ
  dimension : ℕ
  num_points : ℕ
  matrix : ℕ → ℕ → ℤ
  rhs : ℕ → ℝ
  reordered_matrix : ℕ → ℕ → ℤ
  cholesky_factor : ℕ → ℕ → ℝ
  cholesky_factor_reorderd : ℕ → ℕ → ℝ

/-- `Problem.__init__` (lines 12–18): build matrix and rhs, reorder, factor
both orderings.  When `build_matrix_and_rhs` returns `None` (dimension not 2
or 3) the construction cannot produce an instance: the subsequent
`self.reorder()` call raises inside `scipy` on the `None` matrix, so no
`Problem` object ever results — modelled as `none`. -/
noncomputable def Problem.init (n_elements dimension : ℕ) : Option Problem :=
  match build_matrix_and_rhs n_elements dimension with
  | none => none
  | some (N, A, b) =>
    some
      { n_elements := n_elements
        dimension := dimension
        num_points := N
        matrix := A
        rhs := b
        reordered_matrix := reorder A N
        cholesky_factor := cholesky fun p q => (A p q : ℝ)
        cholesky_factor_reorderd := cholesky fun p q => (reorder A N p q : ℝ) }

/-- The `Problem(n, 2)` instance. -/
noncomputable def problem2d (n : ℕ) : Problem :=
  { n_elements := n
    dimension := 2
    num_points := n * n
    matrix := matrix_2d n
    rhs := rhs_2d n
    reordered_matrix := reorder (matrix_2d n) (n * n)
    cholesky_factor := cholesky fun p q => (matrix_2d n p q : ℝ)
    cholesky_factor_reorderd := cholesky fun p q => (reorder (matrix_2d n) (n * n) p q : ℝ) }

/-- The `Problem(n, 3)` instance. -/
noncomputable def problem3d (n : ℕ) : Problem :=
  { n_elements := n
    dimension := 3
    num_points := n * n * n
    matrix := matrix_3d n
    rhs := rhs_3d n
    reordered_matrix := reorder (matrix_3d n) (n * n * n)
    cholesky_factor := cholesky fun p q => (matrix_3d n p q : ℝ)
    cholesky_factor_reorderd :=
      cholesky fun p q => (reorder (matrix_3d n) (n * n * n) p q : ℝ) }

/-- `Problem.fill_in_ratio` (lines 220–228).  With `reorder=True` both counts
are `self.reordered_matrix.nnz`; with `reorder=False` the numerator is
`np.count_nonzero(self.cholesky_factor)` and the denominator `self.matrix.nnz`. -/
noncomputable def fill_in_ratio (P : Problem) (reorderFlag : Bool) : ℝ :=
  if reorderFlag then
    (nnz P.num_points P.reordered_matrix : ℝ) / (nnz P.num_points P.reordered_matrix : ℝ)
  else
    (count_nonzero P.num_points P.cholesky_factor : ℝ) / (nnz P.num_points P.matrix : ℝ)

/-! ## Definitions: bundled real matrices and positive-definiteness
infrastructure -/

/-- The `N × N` leading block of an integer matrix, as a real `Fin`-indexed
matrix (the float entries of the source are these exact small integers). -/
def matrixFin (N : ℕ) (A : ℕ → ℕ → ℤ) : Matrix (Fin N) (Fin N) ℝ :=
  Matrix.of fun p q => (A p.val q.val : ℝ)

open Classical in
/-- Indicator weight of an interior-interior off-diagonal coupling of `A`. -/
noncomputable def wAdj {N : ℕ} (A : Matrix (Fin N) (Fin N) ℝ) (bd : Fin N → Prop)
    (p q : Fin N) : ℝ :=
  if ¬bd p ∧ ¬bd q ∧ p ≠ q ∧ A p q ≠ 0 then 1 else 0

open Classical in
/-- Number of interior neighbors of `p` in the coupling graph of `A`. -/
noncomputable def degI {N : ℕ} (A : Matrix (Fin N) (Fin N) ℝ) (bd : Fin N → Prop)
    (p : Fin N) : ℕ :=
  (Finset.univ.filter fun q => ¬bd p ∧ ¬bd q ∧ p ≠ q ∧ A p q ≠ 0).card

/-! ## Theorems -/

/-! ### Arithmetic helpers for linear-index decoding -/

lemma pos_of_lt_mul {n p m : ℕ} (hp : p < n * m) : 0 < n := by
  rcases Nat.eq_zero_or_pos n with h | h
  · subst h; omega
  · exact h

lemma add_mul_div_eq {n : ℕ} (i : ℕ) {j : ℕ} (h : j < n) : (i * n + j) / n = i := by
  have hn : 0 < n := by omega
  rw [Nat.add_comm, Nat.add_mul_div_right j i hn, Nat.div_eq_of_lt h, Nat.zero_add]

lemma add_mul_mod_eq {n : ℕ} (i : ℕ) {j : ℕ} (h : j < n) : (i * n + j) % n = j := by
  rw [Nat.add_comm, Nat.add_mul_mod_self_right, Nat.mod_eq_of_lt h]

lemma decompose2 (n p : ℕ) : p = (p / n) * n + p % n := by
  rw [Nat.mul_comm]; exact (Nat.div_add_mod p n).symm

lemma index_lt {n i j : ℕ} (hi : i < n) (hj : j < n) : i * n + j < n * n := by
  calc i * n + j < i * n + n := by omega
    _ = (i + 1) * n := by ring
    _ ≤ n * n := Nat.mul_le_mul_right n hi

lemma div_lt_of_lt_mul_self {n p : ℕ} (hp : p < n * n) : p / n < n := by
  have hn : 0 < n := pos_of_lt_mul hp
  exact (Nat.div_lt_iff_lt_mul hn).mpr (by omega)

lemma mem_ite_singleton {c : Prop} [Decidable c] {a q : ℕ} :
    q ∈ (if c then [a] else ([] : List ℕ)) ↔ c ∧ q = a := by
  split <;> simp_all

lemma length_ite_singleton {c : Prop} [Decidable c] {a : ℕ} :
    (if c then [a] else ([] : List ℕ)).length = if c then 1 else 0 := by
  split <;> rfl

/-! ### Membership characterization for the neighbor lists -/

theorem mem_get_neighbors_2d {n p : ℕ} (hp : p < n * n) (q : ℕ) :
    q ∈ get_neighbors_2d p n ↔ q < n * n ∧ adjacent2d n p q := by
  have hn : 0 < n := pos_of_lt_mul hp
  have hj : p % n < n := Nat.mod_lt _ hn
  have hi : p / n < n := div_lt_of_lt_mul_self hp
  have hdm : p = (p / n) * n + p % n := decompose2 n p
  simp only [get_neighbors_2d, List.mem_append, mem_ite_singleton]
  constructor
  · rintro (((⟨h0, rfl⟩ | ⟨h1, rfl⟩) | ⟨h2, rfl⟩) | ⟨h3, rfl⟩)
    · have he : p - 1 = (p / n) * n + (p % n - 1) := by omega
      have hd : (p - 1) / n = p / n := by rw [he, add_mul_div_eq _ (by omega)]
      have hm : (p - 1) % n = p % n - 1 := by rw [he, add_mul_mod_eq _ (by omega)]
      exact ⟨by omega, Or.inl ⟨hd, Or.inr (by omega)⟩⟩
    · have he : p + 1 = (p / n) * n + (p % n + 1) := by omega
      have hj1 : p % n + 1 < n := by omega
      have hd : (p + 1) / n = p / n := by rw [he, add_mul_div_eq _ hj1]
      have hm : (p + 1) % n = p % n + 1 := by rw [he, add_mul_mod_eq _ hj1]
      refine ⟨?_, Or.inl ⟨hd, Or.inl hm⟩⟩
      have := index_lt hi hj1
      omega
    · obtain ⟨i', hi'⟩ : ∃ i', p / n = i' + 1 := ⟨p / n - 1, by omega⟩
      have he : p - n = i' * n + p % n := by
        have h1 : p = (i' + 1) * n + p % n := by rw [← hi']; exact hdm
        have h2 : (i' + 1) * n = i' * n + n := by ring
        omega
      have hd : (p - n) / n = i' := by rw [he, add_mul_div_eq _ hj]
      have hm : (p - n) % n = p % n := by rw [he, add_mul_mod_eq _ hj]
      exact ⟨by omega, Or.inr ⟨hm, Or.inr (by omega)⟩⟩
    · have he : p + n = (p / n + 1) * n + p % n := by
        have h2 : (p / n + 1) * n = (p / n) * n + n := by ring
        omega
      have hd : (p + n) / n = p / n + 1 := by rw [he, add_mul_div_eq _ hj]
      have hm : (p + n) % n = p % n := by rw [he, add_mul_mod_eq _ hj]
      refine ⟨?_, Or.inr ⟨hm, Or.inl hd⟩⟩
      have h4 : p / n + 1 < n := by omega
      have h5 := index_lt h4 hj
      omega
  · intro hca
    have hqdm : q = (q / n) * n + q % n := decompose2 n q
    obtain ⟨hq, (⟨hd, (hm | hm)⟩ | ⟨hm, (hd | hd)⟩)⟩ := hca
    · -- right neighbor: q = p + 1
      refine Or.inl (Or.inl (Or.inr ⟨?_, ?_⟩))
      · have : q % n < n := Nat.mod_lt _ hn
        omega
      · rw [hd] at hqdm
        omega
    · -- left neighbor: q = p - 1
      refine Or.inl (Or.inl (Or.inl ⟨by omega, ?_⟩))
      rw [hd] at hqdm
      omega
    · -- top neighbor: q = p + n
      refine Or.inr ⟨?_, ?_⟩
      · have : q / n < n := div_lt_of_lt_mul_self hq
        omega
      · have h2 : (p / n + 1) * n = (p / n) * n + n := by ring
        rw [hd] at hqdm
        omega
    · -- bottom neighbor: q = p - n
      refine Or.inl (Or.inr ⟨by rw [hd]; exact Nat.succ_pos _, ?_⟩)
      have h2 : (q / n + 1) * n = (q / n) * n + n := by ring
      rw [hd] at hdm
      omega

theorem length_get_neighbors_2d_lt {n p : ℕ} (hp : p < n * n)
    (hb : isBoundary2d n p = true) : (get_neighbors_2d p n).length < 4 := by
  have hn : 0 < n := pos_of_lt_mul hp
  have hj : p % n < n := Nat.mod_lt _ hn
  have hi : p / n < n := div_lt_of_lt_mul_self hp
  simp only [isBoundary2d, Bool.or_eq_true, beq_iff_eq] at hb
  simp only [get_neighbors_2d, List.length_append, length_ite_singleton]
  have b1 : (if 0 < p % n then 1 else 0) ≤ 1 := by split <;> omega
  have b2 : (if p % n < n - 1 then 1 else 0) ≤ 1 := by split <;> omega
  have b3 : (if 0 < p / n then 1 else 0) ≤ 1 := by split <;> omega
  have b4 : (if p / n < n - 1 then 1 else 0) ≤ 1 := by split <;> omega
  rcases hb with ((h | h) | h) | h
  · rw [if_neg (show ¬0 < p / n by omega)]; omega
  · rw [if_neg (show ¬p / n < n - 1 by omega)]; omega
  · rw [if_neg (show ¬0 < p % n by omega)]; omega
  · rw [if_neg (show ¬p % n < n - 1 by omega)]; omega

lemma index3_lt {n a b c : ℕ} (ha : a < n) (hb : b < n) (hc : c < n) :
    a * (n * n) + b * n + c < n * n * n := by
  have h1 : b * n + c < n * n := index_lt hb hc
  calc a * (n * n) + b * n + c = a * (n * n) + (b * n + c) := by ring
    _ < a * (n * n) + n * n := by omega
    _ = (a + 1) * (n * n) := by ring
    _ ≤ n * (n * n) := Nat.mul_le_mul_right (n * n) ha
    _ = n * n * n := by ring

lemma decode3 {n : ℕ} (a : ℕ) {b c : ℕ} (hb : b < n) (hc : c < n) :
    (a * (n * n) + b * n + c) / (n * n) = a ∧
      ((a * (n * n) + b * n + c) % (n * n)) / n = b ∧
        (a * (n * n) + b * n + c) % n = c := by
  have h1 : b * n + c < n * n := index_lt hb hc
  have e1 : a * (n * n) + b * n + c = a * (n * n) + (b * n + c) := by ring
  refine ⟨?_, ?_, ?_⟩
  · rw [e1, add_mul_div_eq a h1]
  · rw [e1, add_mul_mod_eq a h1, add_mul_div_eq b hc]
  · have e2 : a * (n * n) + b * n + c = (a * n + b) * n + c := by ring
    rw [e2, add_mul_mod_eq _ hc]

lemma coords3 {n p : ℕ} (hp : p < n * n * n) :
    p / (n * n) < n ∧ (p % (n * n)) / n < n ∧ p % n < n ∧
      p = (p / (n * n)) * (n * n) + ((p % (n * n)) / n) * n + p % n := by
  have hn : 0 < n := by
    rcases Nat.eq_zero_or_pos n with h | h
    · subst h; omega
    · exact h
  have hnn : 0 < n * n := Nat.mul_pos hn hn
  have hi : p / (n * n) < n := by
    refine (Nat.div_lt_iff_lt_mul hnn).mpr ?_
    have e : n * (n * n) = n * n * n := by ring
    omega
  have hr : p % (n * n) < n * n := Nat.mod_lt _ hnn
  have hj : (p % (n * n)) / n < n := div_lt_of_lt_mul_self hr
  have hk : p % n < n := Nat.mod_lt _ hn
  have d1 : p = (p / (n * n)) * (n * n) + p % (n * n) := decompose2 (n * n) p
  have d2 : p % (n * n) = ((p % (n * n)) / n) * n + (p % (n * n)) % n :=
    decompose2 n (p % (n * n))
  have d3 : p % (n * n) % n = p % n := Nat.mod_mod_of_dvd p (dvd_mul_left n n)
  exact ⟨hi, hj, hk, by omega⟩

theorem mem_get_neighbors_3d {n p : ℕ} (hp : p < n * n * n) (q : ℕ) :
    q ∈ get_neighbors_3d p n ↔ q < n * n * n ∧ adjacent3d n p q := by
  obtain ⟨hi, hj, hk, hdm⟩ := coords3 hp
  have hn : 0 < n := by omega
  simp only [get_neighbors_3d, List.mem_append, mem_ite_singleton]
  constructor
  · rintro ((((((⟨h0, rfl⟩ | ⟨h1, rfl⟩) | ⟨h2, rfl⟩) | ⟨h3, rfl⟩) | ⟨h4, rfl⟩) | ⟨h5, rfl⟩))
    · -- back: q = p - 1
      have he : p - 1 = (p / (n * n)) * (n * n) + ((p % (n * n)) / n) * n + (p % n - 1) := by
        omega
      obtain ⟨e1, e2, e3⟩ := decode3 (n := n) (p / (n * n)) hj (show p % n - 1 < n by omega)
      rw [← he] at e1 e2 e3
      exact ⟨by omega, Or.inl ⟨e1, e2, Or.inr (by omega)⟩⟩
    · -- front: q = p + 1
      have hk1 : p % n + 1 < n := by omega
      have he : p + 1 = (p / (n * n)) * (n * n) + ((p % (n * n)) / n) * n + (p % n + 1) := by
        omega
      obtain ⟨e1, e2, e3⟩ := decode3 (n := n) (p / (n * n)) hj hk1
      rw [← he] at e1 e2 e3
      have hlt := index3_lt hi hj hk1
      exact ⟨by omega, Or.inl ⟨e1, e2, Or.inl (by omega)⟩⟩
    · -- left: q = p - n
      obtain ⟨j', hj'⟩ : ∃ j', (p % (n * n)) / n = j' + 1 := ⟨(p % (n * n)) / n - 1, by omega⟩
      have hr : (j' + 1) * n = j' * n + n := by ring
      have he : p - n = (p / (n * n)) * (n * n) + j' * n + p % n := by
        rw [hj'] at hdm; omega
      obtain ⟨e1, e2, e3⟩ := decode3 (n := n) (p / (n * n)) (show j' < n by omega) hk
      rw [← he] at e1 e2 e3
      exact ⟨by omega, Or.inr (Or.inl ⟨e1, e3, Or.inr (by omega)⟩)⟩
    · -- right: q = p + n
      have hj1 : (p % (n * n)) / n + 1 < n := by omega
      have hr : ((p % (n * n)) / n + 1) * n = ((p % (n * n)) / n) * n + n := by ring
      have he : p + n = (p / (n * n)) * (n * n) + ((p % (n * n)) / n + 1) * n + p % n := by
        omega
      obtain ⟨e1, e2, e3⟩ := decode3 (n := n) (p / (n * n)) hj1 hk
      rw [← he] at e1 e2 e3
      have hlt := index3_lt hi hj1 hk
      exact ⟨by omega, Or.inr (Or.inl ⟨e1, e3, Or.inl (by omega)⟩)⟩
    · -- bottom: q = p - n * n
      obtain ⟨i', hi'⟩ : ∃ i', p / (n * n) = i' + 1 := ⟨p / (n * n) - 1, by omega⟩
      have hr : (i' + 1) * (n * n) = i' * (n * n) + n * n := by ring
      have he : p - n * n = i' * (n * n) + ((p % (n * n)) / n) * n + p % n := by
        rw [hi'] at hdm; omega
      obtain ⟨e1, e2, e3⟩ := decode3 (n := n) i' hj hk
      rw [← he] at e1 e2 e3
      exact ⟨by omega, Or.inr (Or.inr ⟨e2, e3, Or.inr (by omega)⟩)⟩
    · -- top: q = p + n * n
      have hi1 : p / (n * n) + 1 < n := by omega
      have hr : (p / (n * n) + 1) * (n * n) = (p / (n * n)) * (n * n) + n * n := by ring
      have he : p + n * n = (p / (n * n) + 1) * (n * n) + ((p % (n * n)) / n) * n + p % n := by
        omega
      obtain ⟨e1, e2, e3⟩ := decode3 (n := n) (p / (n * n) + 1) hj hk
      rw [← he] at e1 e2 e3
      have hlt := index3_lt hi1 hj hk
      exact ⟨by omega, Or.inr (Or.inr ⟨e2, e3, Or.inl (by omega)⟩)⟩
  · intro hca
    obtain ⟨hq, hadj⟩ := hca
    obtain ⟨qi, qj, qk, qdm⟩ := coords3 hq
    rcases hadj with ⟨e1, e2, (e3 | e3)⟩ | ⟨e1, e3, (e2 | e2)⟩ | ⟨e2, e3, (e1 | e1)⟩
    · -- front: q = p + 1
      refine Or.inl (Or.inl (Or.inl (Or.inl (Or.inr ⟨by omega, ?_⟩))))
      rw [e1, e2] at qdm; omega
    · -- back: q = p - 1
      refine Or.inl (Or.inl (Or.inl (Or.inl (Or.inl ⟨by rw [e3]; exact Nat.succ_pos _, ?_⟩))))
      rw [e1, e2] at qdm; omega
    · -- right: q = p + n
      refine Or.inl (Or.inl (Or.inr ⟨by omega, ?_⟩))
      have hr : (((p % (n * n)) / n) + 1) * n = ((p % (n * n)) / n) * n + n := by ring
      rw [e1, e2] at qdm; omega
    · -- left: q = p - n
      refine Or.inl (Or.inl (Or.inl (Or.inr ⟨by rw [e2]; exact Nat.succ_pos _, ?_⟩)))
      have hr : (((q % (n * n)) / n) + 1) * n = ((q % (n * n)) / n) * n + n := by ring
      rw [e1, e3] at qdm
      rw [e2] at hdm
      omega
    · -- top: q = p + n * n
      refine Or.inr ⟨by omega, ?_⟩
      have hr : ((p / (n * n)) + 1) * (n * n) = (p / (n * n)) * (n * n) + n * n := by ring
      rw [e1, e2, e3] at qdm; omega
    · -- bottom: q = p - n * n
      refine Or.inl (Or.inr ⟨by rw [e1]; exact Nat.succ_pos _, ?_⟩)
      have hr : ((q / (n * n)) + 1) * (n * n) = (q / (n * n)) * (n * n) + n * n := by ring
      rw [e2, e3] at qdm
      rw [e1] at hdm
      omega

theorem length_get_neighbors_3d_lt {n p : ℕ} (hp : p < n * n * n)
    (hb : isBoundary3d n p = true) : (get_neighbors_3d p n).length < 6 := by
  obtain ⟨hi, hj, hk, hdm⟩ := coords3 hp
  simp only [isBoundary3d, Bool.or_eq_true, beq_iff_eq] at hb
  simp only [get_neighbors_3d, List.length_append, length_ite_singleton]
  have b1 : (if 0 < p % n then 1 else 0) ≤ 1 := by split <;> omega
  have b2 : (if p % n < n - 1 then 1 else 0) ≤ 1 := by split <;> omega
  have b3 : (if 0 < p % (n * n) / n then 1 else 0) ≤ 1 := by split <;> omega
  have b4 : (if p % (n * n) / n < n - 1 then 1 else 0) ≤ 1 := by split <;> omega
  have b5 : (if 0 < p / (n * n) then 1 else 0) ≤ 1 := by split <;> omega
  have b6 : (if p / (n * n) < n - 1 then 1 else 0) ≤ 1 := by split <;> omega
  rcases hb with ((((h | h) | h) | h) | h) | h
  · rw [if_neg (show ¬0 < p / (n * n) by omega)]; omega
  · rw [if_neg (show ¬p / (n * n) < n - 1 by omega)]; omega
  · rw [if_neg (show ¬0 < p % (n * n) / n by omega)]; omega
  · rw [if_neg (show ¬p % (n * n) / n < n - 1 by omega)]; omega
  · rw [if_neg (show ¬0 < p % n by omega)]; omega
  · rw [if_neg (show ¬p % n < n - 1 by omega)]; omega

/-- **C5.** For every `n ≥ 1` and every linear index `p` in `[0, n^D)` with
`D ∈ {2, 3}`, `get_neighbors_2d(p, n)` (resp. `get_neighbors_3d(p, n)`)
returns exactly the linear indices of in-range grid points differing from `p`
by ±1 in exactly one coordinate, and a point on the boundary (a coordinate at
0 or `n − 1`) receives fewer than `2·D` neighbors. -/
theorem C5_neighbors_exact {n : ℕ} (hn : 1 ≤ n) :
    (∀ p, p < n * n →
      (∀ q, q ∈ get_neighbors_2d p n ↔ q < n * n ∧ adjacent2d n p q) ∧
        (isBoundary2d n p = true → (get_neighbors_2d p n).length < 4)) ∧
      (∀ p, p < n * n * n →
        (∀ q, q ∈ get_neighbors_3d p n ↔ q < n * n * n ∧ adjacent3d n p q) ∧
          (isBoundary3d n p = true → (get_neighbors_3d p n).length < 6)) :=
  ⟨fun _ hp => ⟨fun q => mem_get_neighbors_2d hp q, length_get_neighbors_2d_lt hp⟩,
    fun _ hp => ⟨fun q => mem_get_neighbors_3d hp q, length_get_neighbors_3d_lt hp⟩⟩

/-- Witness for C5 at the concrete resolution `n = 2`. -/
theorem C5_neighbors_exact_witness :
    1 ≤ 2 ∧
      ((∀ p, p < 2 * 2 →
        (∀ q, q ∈ get_neighbors_2d p 2 ↔ q < 2 * 2 ∧ adjacent2d 2 p q) ∧
          (isBoundary2d 2 p = true → (get_neighbors_2d p 2).length < 4)) ∧
        (∀ p, p < 2 * 2 * 2 →
          (∀ q, q ∈ get_neighbors_3d p 2 ↔ q < 2 * 2 * 2 ∧ adjacent3d 2 p q) ∧
            (isBoundary3d 2 p = true → (get_neighbors_3d p 2).length < 6))) :=
  ⟨by omega, C5_neighbors_exact (by omega)⟩

/-! ### C10: `exact_solution` on an invalid dimension -/

/-- **C10.** If a `Problem` object's dimension field is neither 2 nor 3,
`exact_solution(n)` returns `None` (after printing a message) instead of
raising, so callers receive `None` in place of a vector. -/
theorem C10_exact_solution_invalid_dimension_none {dimension n_elements : ℕ}
    (h2 : dimension ≠ 2) (h3 : dimension ≠ 3) :
    exact_solution dimension n_elements = none := by
  unfold exact_solution
  rw [if_neg h2, if_neg h3]

/-- Witness for C10 at dimension 5. -/
theorem C10_exact_solution_invalid_dimension_none_witness :
    (5 : ℕ) ≠ 2 ∧ (5 : ℕ) ≠ 3 ∧ exact_solution 5 3 = none :=
  ⟨by decide, by decide,
    C10_exact_solution_invalid_dimension_none (by decide) (by decide)⟩

/-! ### C2: construction fails on an invalid dimension -/

/-- **C2.** For every `n ≥ 1` and dimension `D ∉ {2, 3}`, constructing
`Problem(n, D)` fails at construction (the assembler reports the invalid
dimension and yields no system, and `__init__` cannot complete), rather than
silently producing a degenerate instance: the construction yields `none`. -/
theorem C2_invalid_dimension_construction_fails {n_elements dimension : ℕ}
    (hn : 1 ≤ n_elements) (h2 : dimension ≠ 2) (h3 : dimension ≠ 3) :
    Problem.init n_elements dimension = none := by
  unfold Problem.init build_matrix_and_rhs
  rw [if_neg h2, if_neg h3]

/-- Witness for C2 at `n = 1`, `D = 5`. -/
theorem C2_invalid_dimension_construction_fails_witness :
    1 ≤ 1 ∧ (5 : ℕ) ≠ 2 ∧ (5 : ℕ) ≠ 3 ∧ Problem.init 1 5 = none :=
  ⟨by decide, by decide, by decide,
    C2_invalid_dimension_construction_fails (by decide) (by decide) (by decide)⟩

/-! ### C4: triangular solves -/

theorem forward_substitution_mulVec {F : Type} [Field F] {N : ℕ}
    (L : Matrix (Fin N) (Fin N) F) (b : Fin N → F)
    (hlow : ∀ i j : Fin N, i < j → L i j = 0) (hd : ∀ i, L i i ≠ 0) :
    L.mulVec (forward_substitution L b) = b := by
  funext i
  have hy : L i i * forward_substitution L b i
      = b i - ∑ k : Fin N, if k < i then L i k * forward_substitution L b k else 0 := by
    rw [forward_substitution]
    simp only [dite_eq_ite]
    rw [mul_comm, div_mul_cancel₀ _ (hd i)]
  have hsplit : ∀ j : Fin N, L i j * forward_substitution L b j
      = (if j < i then L i j * forward_substitution L b j else 0)
        + (if j = i then L i i * forward_substitution L b i else 0) := by
    intro j
    rcases lt_trichotomy j i with h | h | h
    · rw [if_pos h, if_neg (ne_of_lt h), add_zero]
    · subst h
      rw [if_neg (lt_irrefl j), if_pos rfl, zero_add]
    · rw [hlow i j h, zero_mul, if_neg (not_lt.mpr h.le), if_neg (ne_of_gt h), add_zero]
  calc L.mulVec (forward_substitution L b) i
      = ∑ j : Fin N, L i j * forward_substitution L b j := by
        simp [Matrix.mulVec, Matrix.dotProduct]
    _ = ∑ j : Fin N, ((if j < i then L i j * forward_substitution L b j else 0)
          + (if j = i then L i i * forward_substitution L b i else 0)) :=
        Finset.sum_congr rfl fun j _ => hsplit j
    _ = (∑ j : Fin N, if j < i then L i j * forward_substitution L b j else 0)
          + ∑ j : Fin N, if j = i then L i i * forward_substitution L b i else 0 :=
        Finset.sum_add_distrib
    _ = (∑ j : Fin N, if j < i then L i j * forward_substitution L b j else 0)
          + L i i * forward_substitution L b i := by
        rw [Finset.sum_ite_eq' Finset.univ i
          (fun _ => L i i * forward_substitution L b i), if_pos (Finset.mem_univ i)]
    _ = b i := by rw [hy]; ring

theorem backward_substitution_mulVec {F : Type} [Field F] {N : ℕ}
    (U : Matrix (Fin N) (Fin N) F) (y : Fin N → F)
    (hupp : ∀ i j : Fin N, j < i → U i j = 0) (hd : ∀ i, U i i ≠ 0) :
    U.mulVec (backward_substitution U y) = y := by
  funext i
  have hx : U i i * backward_substitution U y i
      = y i - ∑ k : Fin N, if i < k then U i k * backward_substitution U y k else 0 := by
    rw [backward_substitution]
    simp only [dite_eq_ite]
    rw [mul_comm, div_mul_cancel₀ _ (hd i)]
  have hsplit : ∀ j : Fin N, U i j * backward_substitution U y j
      = (if i < j then U i j * backward_substitution U y j else 0)
        + (if j = i then U i i * backward_substitution U y i else 0) := by
    intro j
    rcases lt_trichotomy i j with h | h | h
    · rw [if_pos h, if_neg (ne_of_gt h), add_zero]
    · subst h
      rw [if_neg (lt_irrefl i), if_pos rfl, zero_add]
    · rw [hupp i j h, zero_mul, if_neg (not_lt.mpr h.le), if_neg (ne_of_lt h), add_zero]
  calc U.mulVec (backward_substitution U y) i
      = ∑ j : Fin N, U i j * backward_substitution U y j := by
        simp [Matrix.mulVec, Matrix.dotProduct]
    _ = ∑ j : Fin N, ((if i < j then U i j * backward_substitution U y j else 0)
          + (if j = i then U i i * backward_substitution U y i else 0)) :=
        Finset.sum_congr rfl fun j _ => hsplit j
    _ = (∑ j : Fin N, if i < j then U i j * backward_substitution U y j else 0)
          + ∑ j : Fin N, if j = i then U i i * backward_substitution U y i else 0 :=
        Finset.sum_add_distrib
    _ = (∑ j : Fin N, if i < j then U i j * backward_substitution U y j else 0)
          + U i i * backward_substitution U y i := by
        rw [Finset.sum_ite_eq' Finset.univ i
          (fun _ => U i i * backward_substitution U y i), if_pos (Finset.mem_univ i)]
    _ = y i := by rw [hx]; ring

/-- **C4.** In exact arithmetic, for every `N × N` lower-triangular matrix
`L` with nonzero diagonal and every vector `b`: forward substitution returns
`y` with `L·y = b`; backward substitution applied to `Lᵗ` and `y` returns `x`
with `Lᵗ·x = y`; hence `solve_cholesky` returns `x` with `A·x = b` whenever
the stored factor satisfies `L·Lᵗ = A`. -/
theorem C4_substitution_solves {F : Type} [Field F] {N : ℕ}
    (L : Matrix (Fin N) (Fin N) F) (b : Fin N → F)
    (hlow : ∀ i j : Fin N, i < j → L i j = 0) (hd : ∀ i, L i i ≠ 0) :
    L.mulVec (forward_substitution L b) = b ∧
      L.transpose.mulVec
          (backward_substitution L.transpose (forward_substitution L b)) =
        forward_substitution L b ∧
      ∀ A : Matrix (Fin N) (Fin N) F, L * L.transpose = A →
        A.mulVec (solve_cholesky L b) = b := by
  have h1 := forward_substitution_mulVec L b hlow hd
  have h2 := backward_substitution_mulVec L.transpose (forward_substitution L b)
    (fun i j hji => hlow j i hji) (fun i => hd i)
  refine ⟨h1, h2, ?_⟩
  intro A hA
  subst hA
  rw [← Matrix.mulVec_mulVec, solve_cholesky, h2, h1]

/-- Witness for C4 at the concrete rational system `L = [[1,0],[2,3]]`,
`b = (4, 5)`. -/
theorem C4_substitution_solves_witness :
    (∀ i j : Fin 2, i < j → (!![(1 : ℚ), 0; 2, 3]) i j = 0) ∧
      (∀ i : Fin 2, (!![(1 : ℚ), 0; 2, 3]) i i ≠ 0) ∧
      ((!![(1 : ℚ), 0; 2, 3]).mulVec
          (forward_substitution !![(1 : ℚ), 0; 2, 3] ![4, 5]) = ![4, 5] ∧
        (!![(1 : ℚ), 0; 2, 3]).transpose.mulVec
            (backward_substitution (!![(1 : ℚ), 0; 2, 3]).transpose
              (forward_substitution !![(1 : ℚ), 0; 2, 3] ![4, 5])) =
          forward_substitution !![(1 : ℚ), 0; 2, 3] ![4, 5] ∧
        ∀ A : Matrix (Fin 2) (Fin 2) ℚ,
          !![(1 : ℚ), 0; 2, 3] * (!![(1 : ℚ), 0; 2, 3]).transpose = A →
            A.mulVec (solve_cholesky !![(1 : ℚ), 0; 2, 3] ![4, 5]) = ![4, 5]) :=
  ⟨by decide, by decide,
    C4_substitution_solves !![(1 : ℚ), 0; 2, 3] ![4, 5] (by decide) (by decide)⟩

/-! ### C9: boundary entries of the right-hand side -/

lemma not_mem_self_get_neighbors_2d {n p : ℕ} (hp : p < n * n) :
    p ∉ get_neighbors_2d p n := by
  intro hmem
  have h := (mem_get_neighbors_2d hp p).mp hmem
  rcases h.2 with ⟨_, (h | h)⟩ | ⟨_, (h | h)⟩ <;> omega

lemma not_mem_self_get_neighbors_3d {n p : ℕ} (hp : p < n * n * n) :
    p ∉ get_neighbors_3d p n := by
  intro hmem
  have h := (mem_get_neighbors_3d hp p).mp hmem
  rcases h.2 with ⟨_, _, (h | h)⟩ | ⟨_, _, (h | h)⟩ | ⟨_, _, (h | h)⟩ <;> omega

/-- The elimination pass never changes a boundary entry of `f_vector` (2D). -/
theorem rhs_2d_boundary_unchanged {n p : ℕ} (hp : p < n * n)
    (hb : isBoundary2d n p = true) : rhs_2d n p = rhs0_2d n p := by
  unfold rhs_2d
  rw [sub_eq_self]
  refine Finset.sum_eq_zero fun p' _ => ?_
  rw [if_neg]
  rintro ⟨hb', hmem, hA⟩
  have hA1 : A1_2d n p p' = if p' = p then 1 else 0 := by
    unfold A1_2d; rw [if_pos hb]
  rw [hA1] at hA
  by_cases hpq : p' = p
  · subst hpq
    exact not_mem_self_get_neighbors_2d hp hmem
  · rw [if_neg hpq] at hA; exact hA rfl

/-- The elimination pass never changes a boundary entry of `f_vector` (3D). -/
theorem rhs_3d_boundary_unchanged {n p : ℕ} (hp : p < n * n * n)
    (hb : isBoundary3d n p = true) : rhs_3d n p = rhs0_3d n p := by
  unfold rhs_3d
  rw [sub_eq_self]
  refine Finset.sum_eq_zero fun p' _ => ?_
  rw [if_neg]
  rintro ⟨hb', hmem, hA⟩
  have hA1 : A1_3d n p p' = if p' = p then 1 else 0 := by
    unfold A1_3d; rw [if_pos hb]
  rw [hA1] at hA
  by_cases hpq : p' = p
  · subst hpq
    exact not_mem_self_get_neighbors_3d hp hmem
  · rw [if_neg hpq] at hA; exact hA rfl

/-- **C9.** For every `n ≥ 1`, `D ∈ {2,3}` and boundary index `p`, the final
right-hand side equals the exact-solution vector at `p`: the elimination pass
leaves boundary entries unchanged (the zeroing pass touches only the matrix),
and both `rhs` and `exact_solution` evaluate the same `u₀` at the same
physical coordinates. -/
theorem C9_boundary_rhs_eq_exact {n : ℕ} (hn : 1 ≤ n) :
    (∀ p, p < n * n → isBoundary2d n p = true →
      rhs_2d n p = rhs0_2d n p ∧
        ∀ u, exact_solution 2 n = some u → rhs_2d n p = u p) ∧
      ∀ p, p < n * n * n → isBoundary3d n p = true →
        rhs_3d n p = rhs0_3d n p ∧
          ∀ u, exact_solution 3 n = some u → rhs_3d n p = u p := by
  constructor
  · intro p hp hb
    refine ⟨rhs_2d_boundary_unchanged hp hb, ?_⟩
    intro u hu
    unfold exact_solution at hu
    rw [if_pos rfl, Option.some_inj] at hu
    rw [rhs_2d_boundary_unchanged hp hb, ← hu]
    unfold rhs0_2d
    rw [if_pos hb]
  · intro p hp hb
    refine ⟨rhs_3d_boundary_unchanged hp hb, ?_⟩
    intro u hu
    unfold exact_solution at hu
    rw [if_neg (by decide), if_pos rfl, Option.some_inj] at hu
    rw [rhs_3d_boundary_unchanged hp hb, ← hu]
    unfold rhs0_3d
    rw [if_pos hb]

/-- Witness for C9 at `n = 1` (the single grid point is boundary). -/
theorem C9_boundary_rhs_eq_exact_witness :
    1 ≤ 1 ∧
      ((∀ p, p < 1 * 1 → isBoundary2d 1 p = true →
        rhs_2d 1 p = rhs0_2d 1 p ∧
          ∀ u, exact_solution 2 1 = some u → rhs_2d 1 p = u p) ∧
        ∀ p, p < 1 * 1 * 1 → isBoundary3d 1 p = true →
          rhs_3d 1 p = rhs0_3d 1 p ∧
            ∀ u, exact_solution 3 1 = some u → rhs_3d 1 p = u p) :=
  ⟨le_refl 1, C9_boundary_rhs_eq_exact (le_refl 1)⟩

/-! ### C6: the concrete `n = 3`, `D = 2` scenario -/

/-- **C6.** For `n = 3`, `D = 2`: the system has 9 unknowns of which 8 are
boundary rows fixed to the identity with rhs equal to `u₀` at their
coordinates; the single interior unknown, index 4, has diagonal 4 and a row
that is zero elsewhere, so its equation is the directly solvable scalar
`4·x[4] = rhs[4]`; and the elimination pass adds the known `u₀` values of its
4 boundary neighbors (the list `[3, 5, 1, 7]`) to its right-hand side, which
therefore equals `f(x₄,y₄)·h² + Σ_q u₀(x_q)`. -/
theorem C6_n3_d2_single_interior_scalar :
    ((Finset.range 9).filter fun p => isBoundary2d 3 p = true).card = 8 ∧
      isBoundary2d 3 4 = false ∧
      (∀ p : Fin 9, isBoundary2d 3 p.val = true →
        (∀ q : Fin 9, matrix_2d 3 p.val q.val = if p = q then 1 else 0) ∧
          rhs_2d 3 p.val = u0_2d (xcoord2d 3 p.val) (ycoord2d 3 p.val)) ∧
      matrix_2d 3 4 4 = 4 ∧
      (∀ q : Fin 9, q.val ≠ 4 → matrix_2d 3 4 q.val = 0 ∧ matrix_2d 3 q.val 4 = 0) ∧
      get_neighbors_2d 4 3 = [3, 5, 1, 7] ∧
      (∀ x : Fin 9 → ℝ, (matrixFin 9 (matrix_2d 3)).mulVec x 4 = 4 * x 4) ∧
      rhs_2d 3 4 = f_2d (xcoord2d 3 4) (ycoord2d 3 4) * spacing 3 ^ 2 +
        (u0_2d (xcoord2d 3 1) (ycoord2d 3 1) + u0_2d (xcoord2d 3 3) (ycoord2d 3 3) +
          u0_2d (xcoord2d 3 5) (ycoord2d 3 5) + u0_2d (xcoord2d 3 7) (ycoord2d 3 7)) := by
  refine ⟨by decide, by decide, ?_, by decide, by decide, by decide, ?_, ?_⟩
  · intro p hb
    constructor
    · have h := (by decide :
        ∀ p : Fin 9, isBoundary2d 3 p.val = true →
          ∀ q : Fin 9, matrix_2d 3 p.val q.val = if p = q then 1 else 0)
      exact h p hb
    · rw [rhs_2d_boundary_unchanged (show p.val < 3 * 3 from p.isLt) hb]
      unfold rhs0_2d
      rw [if_pos hb]
  · intro x
    have hq : ∀ q : Fin 9, matrix_2d 3 (((4 : Fin 9) : ℕ)) q.val = if q = 4 then 4 else 0 := by
      decide
    have h1 : (matrixFin 9 (matrix_2d 3)).mulVec x 4 =
        ∑ q : Fin 9, ((matrix_2d 3 (((4 : Fin 9) : ℕ)) q.val : ℤ) : ℝ) * x q := by
      simp [matrixFin, Matrix.mulVec, Matrix.dotProduct]
    rw [h1]
    have h2 : ∀ q : Fin 9,
        ((matrix_2d 3 (((4 : Fin 9) : ℕ)) q.val : ℤ) : ℝ) * x q =
          if q = 4 then 4 * x q else 0 := by
      intro q
      rw [hq q]
      split
      · norm_num
      · norm_num
    rw [Finset.sum_congr rfl fun q _ => h2 q]
    rw [Finset.sum_ite_eq' Finset.univ 4 (fun q => 4 * x q), if_pos (Finset.mem_univ _)]
  · unfold rhs_2d
    rw [show (3 * 3 : ℕ) = 9 from rfl]
    rw [Finset.sum_range_succ, Finset.sum_range_succ, Finset.sum_range_succ,
      Finset.sum_range_succ, Finset.sum_range_succ, Finset.sum_range_succ,
      Finset.sum_range_succ, Finset.sum_range_succ, Finset.sum_range_succ,
      Finset.sum_range_zero]
    rw [if_neg (by decide), if_pos (by decide), if_neg (by decide), if_pos (by decide),
      if_neg (by decide), if_pos (by decide), if_neg (by decide), if_pos (by decide),
      if_neg (by decide)]
    have h1 : rhs0_2d 3 4 = f_2d (xcoord2d 3 4) (ycoord2d 3 4) * spacing 3 ^ 2 := by
      unfold rhs0_2d; rw [if_neg (by decide)]
    have h2 : ∀ p, isBoundary2d 3 p = true →
        rhs0_2d 3 p = u0_2d (xcoord2d 3 p) (ycoord2d 3 p) := by
      intro p hb; unfold rhs0_2d; rw [if_pos hb]
    rw [h1, h2 1 (by decide), h2 3 (by decide), h2 5 (by decide), h2 7 (by decide)]
    rw [show A1_2d 3 4 1 = -1 from by decide, show A1_2d 3 4 3 = -1 from by decide,
      show A1_2d 3 4 5 = -1 from by decide, show A1_2d 3 4 7 = -1 from by decide]
    push_cast
    ring

/-! ### C7: the reordering is a symmetric permutation -/

lemma length_le_of_nodup_lt {l : List ℕ} {N : ℕ} (hnd : l.Nodup)
    (hlt : ∀ x ∈ l, x < N) : l.length ≤ N := by
  have h1 : l.toFinset ⊆ Finset.range N := by
    intro x hx
    rw [List.mem_toFinset] at hx
    exact Finset.mem_range.mpr (hlt x hx)
  have h2 := Finset.card_le_card h1
  rw [List.toFinset_card_of_nodup hnd, Finset.card_range] at h2
  exact h2

lemma length_lt_of_nodup_lt {l : List ℕ} {N s : ℕ} (hnd : l.Nodup)
    (hlt : ∀ x ∈ l, x < N) (hs : s < N) (hmem : s ∉ l) : l.length < N := by
  have h1 : l.toFinset ⊆ (Finset.range N).erase s := by
    intro x hx
    rw [List.mem_toFinset] at hx
    exact Finset.mem_erase.mpr ⟨fun he => hmem (he ▸ hx), Finset.mem_range.mpr (hlt x hx)⟩
  have h2 := Finset.card_le_card h1
  rw [List.toFinset_card_of_nodup hnd,
    Finset.card_erase_of_mem (Finset.mem_range.mpr hs), Finset.card_range] at h2
  omega

lemma cmRun_spec (A : ℕ → ℕ → ℤ) (N : ℕ) :
    ∀ fuel order queue, order.Nodup → (∀ x ∈ order, x < N) →
      (∀ x ∈ queue, x ∈ order) →
      2 * (N - order.length) + queue.length + 1 ≤ fuel →
      (cmRun A N fuel order queue).Nodup ∧
        (∀ x ∈ cmRun A N fuel order queue, x < N) ∧
        ∀ q, q < N → q ∈ cmRun A N fuel order queue := by
  intro fuel
  induction fuel with
  | zero =>
    intro order queue _ _ _ hf
    exfalso
    omega
  | succ fuel ih =>
    intro order queue hnd hlt hqsub hf
    cases queue with
    | nil =>
      rw [cmRun]
      cases hfil : (List.range N).filter (fun s => decide (s ∉ order)) with
      | nil =>
        refine ⟨hnd, hlt, ?_⟩
        intro q hq
        by_contra hq2
        have hmem : q ∈ (List.range N).filter (fun s => decide (s ∉ order)) := by
          rw [List.mem_filter]
          exact ⟨List.mem_range.mpr hq, by simpa using hq2⟩
        rw [hfil] at hmem
        exact absurd hmem (List.not_mem_nil q)
      | cons s rest =>
        have hs : s ∈ (List.range N).filter (fun s => decide (s ∉ order)) := by
          rw [hfil]; exact List.mem_cons_self _ _
        rw [List.mem_filter] at hs
        have hsN : s < N := List.mem_range.mp hs.1
        have hso : s ∉ order := by simpa using hs.2
        have hlen : order.length < N := length_lt_of_nodup_lt hnd hlt hsN hso
        have hnd' : (order ++ [s]).Nodup := by
          refine hnd.append (List.nodup_singleton s) ?_
          intro a ha hb
          rw [List.mem_singleton] at hb
          exact hso (hb ▸ ha)
        have hlt' : ∀ x ∈ order ++ [s], x < N := by
          intro x hx
          rcases List.mem_append.mp hx with h | h
          · exact hlt x h
          · rw [List.mem_singleton] at h; exact h ▸ hsN
        have hq' : ∀ x ∈ [s], x ∈ order ++ [s] := fun x hx =>
          List.mem_append_right _ hx
        refine ih (order ++ [s]) [s] hnd' hlt' hq' ?_
        simp only [List.length_append, List.length_singleton, List.length_nil] at hf ⊢
        omega
    | cons v queue' =>
      simp only [cmRun]
      set srt := ((List.range N).filter
          (fun q => adjacencyB A v q && decide (q ∉ order))).insertionSort
          (fun a b => degree A N a ≤ degree A N b) with hsrt
      have hperm : srt.Perm ((List.range N).filter
          (fun q => adjacencyB A v q && decide (q ∉ order))) :=
        List.perm_insertionSort _ _
      have hnbrd : ((List.range N).filter
          (fun q => adjacencyB A v q && decide (q ∉ order))).Nodup :=
        (List.nodup_range N).filter _
      have hsrtd : srt.Nodup := hperm.nodup_iff.mpr hnbrd
      have hsrtprop : ∀ x ∈ srt, x < N ∧ x ∉ order := by
        intro x hx
        have hmem := hperm.mem_iff.mp hx
        rw [List.mem_filter] at hmem
        refine ⟨List.mem_range.mp hmem.1, ?_⟩
        have h2 := hmem.2
        rw [Bool.and_eq_true] at h2
        simpa using h2.2
      have hnd' : (order ++ srt).Nodup := by
        refine hnd.append hsrtd ?_
        intro a ha hb
        exact (hsrtprop a hb).2 ha
      have hlt' : ∀ x ∈ order ++ srt, x < N := by
        intro x hx
        rcases List.mem_append.mp hx with h | h
        · exact hlt x h
        · exact (hsrtprop x h).1
      have hq' : ∀ x ∈ queue' ++ srt, x ∈ order ++ srt := by
        intro x hx
        rcases List.mem_append.mp hx with h | h
        · exact List.mem_append_left _ (hqsub x (List.mem_cons_of_mem v h))
        · exact List.mem_append_right _ h
      refine ih (order ++ srt) (queue' ++ srt) hnd' hlt' hq' ?_
      have hlen' : (order ++ srt).length ≤ N := length_le_of_nodup_lt hnd' hlt'
      simp only [List.length_append, List.length_cons] at hf hlen' ⊢
      omega

/-- The reverse Cuthill–McKee order is a permutation of `0, …, N-1`. -/
theorem rcm_order_spec (A : ℕ → ℕ → ℤ) (N : ℕ) :
    (rcm_order A N).Nodup ∧ (∀ x ∈ rcm_order A N, x < N) ∧
      (∀ q, q < N → q ∈ rcm_order A N) ∧ (rcm_order A N).length = N := by
  have h := cmRun_spec A N (2 * N + 1) [] [] (List.nodup_nil)
    (by intro x hx; exact absurd hx (List.not_mem_nil x))
    (by intro x hx; exact absurd hx (List.not_mem_nil x))
    (by simp)
  obtain ⟨hnd, hlt, hcomp⟩ := h
  have hnd' : (rcm_order A N).Nodup := by
    unfold rcm_order; exact List.nodup_reverse.mpr hnd
  have hlt' : ∀ x ∈ rcm_order A N, x < N := by
    intro x hx
    unfold rcm_order at hx
    exact hlt x (List.mem_reverse.mp hx)
  have hcomp' : ∀ q, q < N → q ∈ rcm_order A N := by
    intro q hq
    unfold rcm_order
    exact List.mem_reverse.mpr (hcomp q hq)
  refine ⟨hnd', hlt', hcomp', ?_⟩
  have hle : (rcm_order A N).length ≤ N := length_le_of_nodup_lt hnd' hlt'
  have hge : N ≤ (rcm_order A N).length := by
    have hsub : Finset.range N ⊆ (rcm_order A N).toFinset := by
      intro x hx
      rw [List.mem_toFinset]
      exact hcomp' x (Finset.mem_range.mp hx)
    have := Finset.card_le_card hsub
    rw [List.toFinset_card_of_nodup hnd', Finset.card_range] at this
    exact this
  omega

lemma posDef_submatrix_equiv {N : ℕ} {M : Matrix (Fin N) (Fin N) ℝ} (e : Fin N ≃ Fin N)
    (hM : M.PosDef) : (M.submatrix e e).PosDef := by
  refine ⟨hM.1.submatrix e, ?_⟩
  intro x hx
  have hx' : (fun i => x (e.symm i)) ≠ 0 := by
    intro hc
    apply hx
    funext i
    have h2 := congrFun hc (e i)
    simpa using h2
  have h2 := hM.2 (fun i => x (e.symm i)) hx'
  convert h2 using 1
  simp only [Matrix.mulVec, Matrix.dotProduct, Matrix.submatrix_apply, Pi.star_apply,
    star_trivial]
  rw [← Equiv.sum_comp e (fun i => x (e.symm i) * ∑ j, M i j * x (e.symm j))]
  simp only [Equiv.symm_apply_apply]
  refine Finset.sum_congr rfl fun i _ => ?_
  congr 1
  rw [← Equiv.sum_comp e (fun j => M (e i) j * x (e.symm j))]
  simp only [Equiv.symm_apply_apply]

/-- **C7.** `reorder()` returns a matrix `A'` with `A'[a,b] = A[π(a), π(b)]`
for a permutation `π` of `[0, N)` — hence `A'` is symmetric iff `A` is, has
the same characteristic polynomial (so the same eigenvalue multiset) and the
same definiteness — and the constructed problem stores the assembled matrix
and right-hand side unchanged, the reordered matrix being a separate value. -/
theorem C7_reorder_symmetric_permutation :
    (∀ (N : ℕ) (A : ℕ → ℕ → ℤ), ∃ π : Equiv.Perm (Fin N),
      (∀ a b : Fin N, matrixFin N (reorder A N) a b = matrixFin N A (π a) (π b)) ∧
        ((matrixFin N A).IsSymm ↔ (matrixFin N (reorder A N)).IsSymm) ∧
        (matrixFin N (reorder A N)).charpoly = (matrixFin N A).charpoly ∧
        ((matrixFin N A).PosDef ↔ (matrixFin N (reorder A N)).PosDef)) ∧
      ∀ n : ℕ,
        Problem.init n 2 = some (problem2d n) ∧ Problem.init n 3 = some (problem3d n) ∧
          (problem2d n).matrix = matrix_2d n ∧ (problem2d n).rhs = rhs_2d n ∧
          (problem2d n).reordered_matrix = reorder (matrix_2d n) (n * n) ∧
          (problem3d n).matrix = matrix_3d n ∧ (problem3d n).rhs = rhs_3d n ∧
          (problem3d n).reordered_matrix = reorder (matrix_3d n) (n * n * n) := by
  constructor
  · intro N A
    obtain ⟨hnd, hlt, hcomp, hlen⟩ := rcm_order_spec A N
    set l := rcm_order A N with hl
    have hget : ∀ a : Fin N, l.getD a.val a.val < N := by
      intro a
      have ha : a.val < l.length := by rw [hlen]; exact a.isLt
      rw [List.getD_eq_getElem l _ ha]
      exact hlt _ (List.getElem_mem ha)
    have hinj : Function.Injective fun a : Fin N => (⟨l.getD a.val a.val, hget a⟩ : Fin N) := by
      intro a b hab
      have ha : a.val < l.length := by rw [hlen]; exact a.isLt
      have hb : b.val < l.length := by rw [hlen]; exact b.isLt
      have h0 : l.getD a.val a.val = l.getD b.val b.val := congrArg Fin.val hab
      rw [List.getD_eq_getElem l _ ha, List.getD_eq_getElem l _ hb] at h0
      have h1 : l.get ⟨a.val, ha⟩ = l.get ⟨b.val, hb⟩ := by
        simpa [List.get_eq_getElem] using h0
      have h2 := List.nodup_iff_injective_get.mp hnd h1
      exact Fin.ext (by simpa using congrArg Fin.val h2)
    refine ⟨Equiv.ofBijective _ (Finite.injective_iff_bijective.mp hinj), ?_⟩
    set π := Equiv.ofBijective _ (Finite.injective_iff_bijective.mp hinj) with hπdef
    have hentry : ∀ a b : Fin N,
        matrixFin N (reorder A N) a b = matrixFin N A (π a) (π b) := fun a b => rfl
    have hsub : matrixFin N (reorder A N) = (matrixFin N A).submatrix π π := by
      funext a b
      rw [hentry a b]
      rfl
    have hback : matrixFin N A = (matrixFin N (reorder A N)).submatrix π.symm π.symm := by
      rw [hsub, Matrix.submatrix_submatrix]
      simp
    refine ⟨hentry, ?_, ?_, ?_⟩
    · constructor
      · intro hs
        rw [hsub]
        unfold Matrix.IsSymm at hs ⊢
        rw [Matrix.transpose_submatrix, hs]
      · intro hs
        rw [hback]
        unfold Matrix.IsSymm at hs ⊢
        rw [Matrix.transpose_submatrix, hs]
    · rw [hsub]
      have h3 := Matrix.charpoly_reindex (R := ℝ) π.symm (matrixFin N A)
      rw [Matrix.reindex_apply] at h3
      simpa using h3
    · constructor
      · intro h
        rw [hsub]
        exact posDef_submatrix_equiv π h
      · intro h
        rw [hback]
        exact posDef_submatrix_equiv π.symm h
  · intro n
    exact ⟨rfl, rfl, rfl, rfl, rfl, rfl, rfl, rfl⟩

/-! ### C8 and C1: the fill-in ratio -/

lemma A1_2d_diag (n p : ℕ) : A1_2d n p p = 1 ∨ A1_2d n p p = 4 := by
  unfold A1_2d
  split
  · left; rw [if_pos rfl]
  · right; rw [if_pos rfl]

lemma A1_3d_diag (n p : ℕ) : A1_3d n p p = 1 ∨ A1_3d n p p = 6 := by
  unfold A1_3d
  split
  · left; rw [if_pos rfl]
  · right; rw [if_pos rfl]

lemma matrix_2d_diag_ne_zero (n p : ℕ) : matrix_2d n p p ≠ 0 := by
  unfold matrix_2d
  split
  · rw [if_pos rfl]; decide
  · rcases A1_2d_diag n p with h | h <;> rw [h] <;> decide

lemma matrix_3d_diag_ne_zero (n p : ℕ) : matrix_3d n p p ≠ 0 := by
  unfold matrix_3d
  split
  · rw [if_pos rfl]; decide
  · rcases A1_3d_diag n p with h | h <;> rw [h] <;> decide

lemma nnz_pos_of_diag {N : ℕ} (A : ℕ → ℕ → ℤ) (hN : 0 < N)
    (hdiag : ∀ p, p < N → A p p ≠ 0) : 0 < nnz N A := by
  rw [nnz, Finset.card_pos]
  refine ⟨(0, 0), ?_⟩
  rw [Finset.mem_filter, Finset.mem_product]
  exact ⟨⟨Finset.mem_range.mpr hN, Finset.mem_range.mpr hN⟩, hdiag 0 hN⟩

lemma reorder_diag_ne_zero {N : ℕ} (A : ℕ → ℕ → ℤ)
    (hdiag : ∀ p, p < N → A p p ≠ 0) : ∀ p, p < N → reorder A N p p ≠ 0 := by
  intro p hp
  obtain ⟨hnd, hlt, hcomp, hlen⟩ := rcm_order_spec A N
  unfold reorder
  have hplen : p < (rcm_order A N).length := by rw [hlen]; exact hp
  rw [List.getD_eq_getElem _ _ hplen]
  exact hdiag _ (hlt _ (List.getElem_mem hplen))

/-- With `reorder=True` the method divides the reordered matrix's nonzero
count by itself, so it returns exactly 1 whenever that count is nonzero —
regardless of the Cholesky factor, which it never consults. -/
lemma fill_in_ratio_reordered_eq_one (P : Problem)
    (h : nnz P.num_points P.reordered_matrix ≠ 0) : fill_in_ratio P true = 1 := by
  unfold fill_in_ratio
  rw [if_pos rfl]
  exact div_self (Nat.cast_ne_zero.mpr h)

lemma cholesky_zero_zero (A : ℕ → ℕ → ℝ) : cholesky A 0 0 = Real.sqrt (A 0 0) := by
  rw [cholesky]
  simp

lemma isBoundary2d_zero (n : ℕ) : isBoundary2d n 0 = true := by
  simp [isBoundary2d]

lemma isBoundary3d_zero (n : ℕ) : isBoundary3d n 0 = true := by
  simp [isBoundary3d]

lemma matrix_2d_zero_zero (n : ℕ) : matrix_2d n 0 0 = 1 := by
  unfold matrix_2d
  rw [if_pos (Or.inl (isBoundary2d_zero n)), if_pos rfl]

lemma matrix_3d_zero_zero (n : ℕ) : matrix_3d n 0 0 = 1 := by
  unfold matrix_3d
  rw [if_pos (Or.inl (isBoundary3d_zero n)), if_pos rfl]

lemma count_nonzero_cholesky_pos {N : ℕ} (A : ℕ → ℕ → ℝ) (hN : 0 < N)
    (h00 : A 0 0 = 1) : 0 < count_nonzero N (cholesky A) := by
  rw [count_nonzero, Finset.card_pos]
  refine ⟨(0, 0), ?_⟩
  rw [Finset.mem_filter, Finset.mem_product]
  refine ⟨⟨Finset.mem_range.mpr hN, Finset.mem_range.mpr hN⟩, ?_⟩
  rw [cholesky_zero_zero, h00, Real.sqrt_one]
  norm_num

/-- **C8 (amended).** For every successfully constructed problem the fill-in
ratio is a positive scalar, but the claimed bound fails: with `reorder=True`
the method always returns exactly `1.0` (both counts are the reordered
matrix's nonzero count), whether or not the matrix is diagonal. -/
theorem C8_fill_in_ratio_amended {n : ℕ} (hn : 1 ≤ n) :
    fill_in_ratio (problem2d n) true = 1 ∧ fill_in_ratio (problem3d n) true = 1 ∧
      0 < fill_in_ratio (problem2d n) false ∧ 0 < fill_in_ratio (problem3d n) false := by
  have hN2 : 0 < n * n := Nat.mul_pos hn hn
  have hN3 : 0 < n * n * n := Nat.mul_pos hN2 hn
  refine ⟨?_, ?_, ?_, ?_⟩
  · refine fill_in_ratio_reordered_eq_one _ ?_
    show nnz (n * n) (reorder (matrix_2d n) (n * n)) ≠ 0
    have h := nnz_pos_of_diag (reorder (matrix_2d n) (n * n)) hN2
      (reorder_diag_ne_zero _ (fun p _ => matrix_2d_diag_ne_zero n p))
    omega
  · refine fill_in_ratio_reordered_eq_one _ ?_
    show nnz (n * n * n) (reorder (matrix_3d n) (n * n * n)) ≠ 0
    have h := nnz_pos_of_diag (reorder (matrix_3d n) (n * n * n)) hN3
      (reorder_diag_ne_zero _ (fun p _ => matrix_3d_diag_ne_zero n p))
    omega
  · unfold fill_in_ratio
    rw [if_neg (by simp)]
    refine div_pos ?_ ?_
    · have h := count_nonzero_cholesky_pos (N := n * n)
        (fun p q => ((matrix_2d n p q : ℤ) : ℝ)) hN2
        (by show ((matrix_2d n 0 0 : ℤ) : ℝ) = 1; rw [matrix_2d_zero_zero]; norm_num)
      exact_mod_cast h
    · have h := nnz_pos_of_diag (matrix_2d n) hN2 (fun p _ => matrix_2d_diag_ne_zero n p)
      exact_mod_cast h
  · unfold fill_in_ratio
    rw [if_neg (by simp)]
    refine div_pos ?_ ?_
    · have h := count_nonzero_cholesky_pos (N := n * n * n)
        (fun p q => ((matrix_3d n p q : ℤ) : ℝ)) hN3
        (by show ((matrix_3d n 0 0 : ℤ) : ℝ) = 1; rw [matrix_3d_zero_zero]; norm_num)
      exact_mod_cast h
    · have h := nnz_pos_of_diag (matrix_3d n) hN3 (fun p _ => matrix_3d_diag_ne_zero n p)
      exact_mod_cast h

/-- Witness for the amended C8 at `n = 1`. -/
theorem C8_fill_in_ratio_amended_witness :
    1 ≤ 1 ∧
      (fill_in_ratio (problem2d 1) true = 1 ∧ fill_in_ratio (problem3d 1) true = 1 ∧
        0 < fill_in_ratio (problem2d 1) false ∧ 0 < fill_in_ratio (problem3d 1) false) :=
  ⟨le_refl 1, C8_fill_in_ratio_amended (le_refl 1)⟩

/-- **C8 (counterexample).** For `Problem(4, 2)` the reordered fill-in ratio
is exactly `1.0` although the reordered matrix is not diagonal: entry `(7, 8)`
equals `-1`.  So `fill_in_ratio = 1.0` does not imply a fully diagonal matrix. -/
theorem C8_fill_in_ratio_counterexample :
    fill_in_ratio (problem2d 4) true = 1 ∧
      (7 : ℕ) < (problem2d 4).num_points ∧ (8 : ℕ) < (problem2d 4).num_points ∧
      (7 : ℕ) ≠ 8 ∧ (problem2d 4).reordered_matrix 7 8 = -1 := by
  refine ⟨?_, by decide, by decide, by decide, by decide⟩
  refine fill_in_ratio_reordered_eq_one _ ?_
  show nnz (4 * 4) (reorder (matrix_2d 4) (4 * 4)) ≠ 0
  have h := nnz_pos_of_diag (reorder (matrix_2d 4) (4 * 4)) (by norm_num)
    (reorder_diag_ne_zero _ (fun p _ => matrix_2d_diag_ne_zero 4 p))
  omega

/-- **C1.** Evaluation of the code at the failing input: with `reorder=True`
the method returns `reordered_matrix.nnz / reordered_matrix.nnz = 1.0`; the
separately stored factor of the reordered matrix (`cholesky_factor_reorderd`)
is never consulted.  Shown here for `Problem(4, 2)` and, structurally, for
every problem whose reordered matrix has a nonzero entry. -/
theorem C1_fill_in_ratio_reordered_ignores_factor :
    fill_in_ratio (problem2d 4) true = 1 ∧
      (∀ P : Problem, nnz P.num_points P.reordered_matrix ≠ 0 →
        fill_in_ratio P true = 1) := by
  constructor
  · refine fill_in_ratio_reordered_eq_one _ ?_
    show nnz (4 * 4) (reorder (matrix_2d 4) (4 * 4)) ≠ 0
    have h := nnz_pos_of_diag (reorder (matrix_2d 4) (4 * 4)) (by norm_num)
      (reorder_diag_ne_zero _ (fun p _ => matrix_2d_diag_ne_zero 4 p))
    omega
  · exact fun P h => fill_in_ratio_reordered_eq_one P h

/-! ### C3: the assembled matrix is symmetric positive definite

A generic result is proved first: a matrix whose boundary rows/columns are the
identity, whose interior diagonal is a constant `c`, whose interior
off-diagonal entries are `-1` or `0` with at most `c` many `-1` per row, and
whose interior coupling graph lets every interior node either see slack
(fewer than `c` interior neighbors) or walk to one along a measure-decreasing
edge, is positive definite.  The 2D and 3D assembled matrices instantiate it
with `c = 4` resp. `c = 6` and the measure `N - p`. -/

section GridPosDef

open Classical

lemma wAdj_nonneg {N : ℕ} (A : Matrix (Fin N) (Fin N) ℝ) (bd : Fin N → Prop)
    (p q : Fin N) : 0 ≤ wAdj A bd p q := by
  unfold wAdj; split <;> norm_num

lemma wAdj_bd_left {N : ℕ} (A : Matrix (Fin N) (Fin N) ℝ) (bd : Fin N → Prop)
    {p : Fin N} (hp : bd p) (q : Fin N) : wAdj A bd p q = 0 := by
  unfold wAdj
  rw [if_neg]
  rintro ⟨h, _⟩
  exact h hp

lemma wAdj_self {N : ℕ} (A : Matrix (Fin N) (Fin N) ℝ) (bd : Fin N → Prop)
    (p : Fin N) : wAdj A bd p p = 0 := by
  unfold wAdj
  rw [if_neg]
  rintro ⟨_, _, h, _⟩
  exact h rfl

lemma wAdj_symm {N : ℕ} (A : Matrix (Fin N) (Fin N) ℝ) (bd : Fin N → Prop)
    (hsym : ∀ p q, A p q = A q p) (p q : Fin N) :
    wAdj A bd p q = wAdj A bd q p := by
  unfold wAdj
  have hiff : (¬bd p ∧ ¬bd q ∧ p ≠ q ∧ A p q ≠ 0) ↔
      (¬bd q ∧ ¬bd p ∧ q ≠ p ∧ A q p ≠ 0) := by
    rw [hsym p q]
    constructor
    · rintro ⟨a, b, c, d⟩; exact ⟨b, a, c.symm, d⟩
    · rintro ⟨a, b, c, d⟩; exact ⟨b, a, c.symm, d⟩
  exact if_congr hiff rfl rfl

lemma wAdj_eq_one {N : ℕ} (A : Matrix (Fin N) (Fin N) ℝ) (bd : Fin N → Prop)
    {p q : Fin N} (hp : ¬bd p) (hq : ¬bd q) (hpq : p ≠ q) (hA : A p q ≠ 0) :
    wAdj A bd p q = 1 := by
  unfold wAdj
  rw [if_pos ⟨hp, hq, hpq, hA⟩]

lemma degI_eq_sum {N : ℕ} (A : Matrix (Fin N) (Fin N) ℝ) (bd : Fin N → Prop)
    (p : Fin N) : ((degI A bd p : ℕ) : ℝ) = ∑ q, wAdj A bd p q := by
  unfold degI wAdj
  rw [← Finset.sum_boole]

lemma gridLike_row {N : ℕ} (A : Matrix (Fin N) (Fin N) ℝ) (bd : Fin N → Prop)
    (c : ℝ)
    (hbd : ∀ p q, bd p ∨ bd q → A p q = if p = q then 1 else 0)
    (hdiag : ∀ p, ¬bd p → A p p = c)
    (hoff : ∀ p q, ¬bd p → ¬bd q → p ≠ q → A p q = -1 ∨ A p q = 0)
    (x : Fin N → ℝ) (p : Fin N) :
    (A.mulVec x) p =
      if bd p then x p else c * x p - ∑ q, wAdj A bd p q * x q := by
  by_cases hp : bd p
  · rw [if_pos hp]
    have hterm : ∀ q, A p q * x q = if q = p then x q else 0 := by
      intro q
      by_cases hq : q = p
      · subst hq
        rw [if_pos rfl, hbd q q (Or.inl hp), if_pos rfl, one_mul]
      · rw [if_neg hq, hbd p q (Or.inl hp), if_neg (fun h => hq h.symm), zero_mul]
    calc (A.mulVec x) p = ∑ q, A p q * x q := by
          simp [Matrix.mulVec, Matrix.dotProduct]
      _ = ∑ q, if q = p then x q else 0 := Finset.sum_congr rfl fun q _ => hterm q
      _ = x p := by
          rw [Finset.sum_ite_eq' Finset.univ p (fun q => x q), if_pos (Finset.mem_univ p)]
  · rw [if_neg hp]
    have hterm : ∀ q, A p q * x q =
        (if q = p then c * x p else 0) - wAdj A bd p q * x q := by
      intro q
      by_cases hq : q = p
      · subst hq
        rw [if_pos rfl, hdiag q hp, wAdj_self, zero_mul, sub_zero]
      · rw [if_neg hq]
        by_cases hq2 : bd q
        · rw [hbd p q (Or.inr hq2), if_neg (fun h => hq h.symm)]
          have hw : wAdj A bd p q = 0 := by
            unfold wAdj
            rw [if_neg]
            rintro ⟨_, h, _⟩
            exact h hq2
          rw [hw]
          ring
        · rcases hoff p q hp hq2 (fun h => hq h.symm) with h | h
          · rw [h, wAdj_eq_one A bd hp hq2 (fun h2 => hq h2.symm) (by rw [h]; norm_num)]
            ring
          · rw [h]
            have hw : wAdj A bd p q = 0 := by
              unfold wAdj
              rw [if_neg]
              rintro ⟨_, _, _, h2⟩
              exact h2 h
            rw [hw]
            ring
    calc (A.mulVec x) p = ∑ q, A p q * x q := by
          simp [Matrix.mulVec, Matrix.dotProduct]
      _ = ∑ q, ((if q = p then c * x p else 0) - wAdj A bd p q * x q) :=
          Finset.sum_congr rfl fun q _ => hterm q
      _ = (∑ q, if q = p then c * x p else 0) - ∑ q, wAdj A bd p q * x q :=
          Finset.sum_sub_distrib
      _ = c * x p - ∑ q, wAdj A bd p q * x q := by
          rw [Finset.sum_ite_eq' Finset.univ p (fun _ => c * x p),
            if_pos (Finset.mem_univ p)]

lemma gridLike_quadForm {N : ℕ} (A : Matrix (Fin N) (Fin N) ℝ) (bd : Fin N → Prop)
    (c : ℝ)
    (hsym : ∀ p q, A p q = A q p)
    (hbd : ∀ p q, bd p ∨ bd q → A p q = if p = q then 1 else 0)
    (hdiag : ∀ p, ¬bd p → A p p = c)
    (hoff : ∀ p q, ¬bd p → ¬bd q → p ≠ q → A p q = -1 ∨ A p q = 0)
    (x : Fin N → ℝ) :
    Matrix.dotProduct x (A.mulVec x) =
      (∑ p, if bd p then x p ^ 2 else 0)
        + (∑ p, if bd p then 0 else (c - ∑ q, wAdj A bd p q) * x p ^ 2)
        + (1 / 2) * ∑ p, ∑ q, wAdj A bd p q * (x p - x q) ^ 2 := by
  have hinner_bd : ∀ p, bd p → ∑ q, wAdj A bd p q * x q = 0 := by
    intro p hp
    refine Finset.sum_eq_zero fun q _ => ?_
    rw [wAdj_bd_left A bd hp, zero_mul]
  have hsumw_bd : ∀ p, bd p → ∑ q, wAdj A bd p q = 0 := by
    intro p hp
    refine Finset.sum_eq_zero fun q _ => ?_
    exact wAdj_bd_left A bd hp q
  -- main row expansion
  have hQ : Matrix.dotProduct x (A.mulVec x) =
      (∑ p, if bd p then x p ^ 2 else 0)
        + (∑ p, if bd p then 0 else c * x p ^ 2)
        - ∑ p, ∑ q, wAdj A bd p q * (x p * x q) := by
    have hterm : ∀ p, x p * (A.mulVec x) p =
        ((if bd p then x p ^ 2 else 0) + (if bd p then 0 else c * x p ^ 2))
          - ∑ q, wAdj A bd p q * (x p * x q) := by
      intro p
      rw [gridLike_row A bd c hbd hdiag hoff x p]
      by_cases hp : bd p
      · rw [if_pos hp, if_pos hp, if_pos hp]
        have h0 : ∑ q, wAdj A bd p q * (x p * x q) = 0 := by
          refine Finset.sum_eq_zero fun q _ => ?_
          rw [wAdj_bd_left A bd hp, zero_mul]
        rw [h0]
        ring
      · rw [if_neg hp, if_neg hp, if_neg hp]
        have h1 : x p * (c * x p - ∑ q, wAdj A bd p q * x q)
            = c * x p ^ 2 - x p * ∑ q, wAdj A bd p q * x q := by ring
        have h2 : x p * ∑ q, wAdj A bd p q * x q
            = ∑ q, wAdj A bd p q * (x p * x q) := by
          rw [Finset.mul_sum]
          exact Finset.sum_congr rfl fun q _ => by ring
        rw [h1, h2]
        ring
    calc Matrix.dotProduct x (A.mulVec x) = ∑ p, x p * (A.mulVec x) p := by
          simp [Matrix.dotProduct]
      _ = ∑ p, (((if bd p then x p ^ 2 else 0) + (if bd p then 0 else c * x p ^ 2))
            - ∑ q, wAdj A bd p q * (x p * x q)) :=
          Finset.sum_congr rfl fun p _ => hterm p
      _ = (∑ p, ((if bd p then x p ^ 2 else 0) + (if bd p then 0 else c * x p ^ 2)))
            - ∑ p, ∑ q, wAdj A bd p q * (x p * x q) := Finset.sum_sub_distrib
      _ = _ := by rw [Finset.sum_add_distrib]
  -- the edge-square sum expands to twice the degree sum minus twice the product sum
  have hE : ∑ p, ∑ q, wAdj A bd p q * (x p - x q) ^ 2 =
      2 * (∑ p, (∑ q, wAdj A bd p q) * x p ^ 2)
        - 2 * ∑ p, ∑ q, wAdj A bd p q * (x p * x q) := by
    have hexp : ∀ p q, wAdj A bd p q * (x p - x q) ^ 2 =
        wAdj A bd p q * x p ^ 2 - 2 * (wAdj A bd p q * (x p * x q))
          + wAdj A bd p q * x q ^ 2 := by
      intro p q
      ring
    have hinner2 : ∀ p, ∑ q, wAdj A bd p q * (x p - x q) ^ 2 =
        (∑ q, wAdj A bd p q * x p ^ 2) - 2 * (∑ q, wAdj A bd p q * (x p * x q))
          + ∑ q, wAdj A bd p q * x q ^ 2 := by
      intro p
      rw [Finset.mul_sum, ← Finset.sum_sub_distrib, ← Finset.sum_add_distrib]
      exact Finset.sum_congr rfl fun q _ => hexp p q
    have h1 : ∑ p, ∑ q, wAdj A bd p q * (x p - x q) ^ 2 =
        (∑ p, ∑ q, wAdj A bd p q * x p ^ 2)
          - 2 * (∑ p, ∑ q, wAdj A bd p q * (x p * x q))
          + ∑ p, ∑ q, wAdj A bd p q * x q ^ 2 := by
      rw [Finset.mul_sum, ← Finset.sum_sub_distrib, ← Finset.sum_add_distrib]
      exact Finset.sum_congr rfl fun p _ => hinner2 p
    have h2 : ∑ p, ∑ q, wAdj A bd p q * x p ^ 2 =
        ∑ p, (∑ q, wAdj A bd p q) * x p ^ 2 := by
      refine Finset.sum_congr rfl fun p _ => ?_
      rw [Finset.sum_mul]
    have h3 : ∑ p, ∑ q, wAdj A bd p q * x q ^ 2 =
        ∑ p, (∑ q, wAdj A bd p q) * x p ^ 2 := by
      rw [Finset.sum_comm]
      refine Finset.sum_congr rfl fun q _ => ?_
      rw [Finset.sum_mul]
      refine Finset.sum_congr rfl fun p _ => ?_
      rw [wAdj_symm A bd hsym]
    rw [h1, h2, h3]
    ring
  -- the slack sum
  have hT : ∑ p, (if bd p then 0 else (c - ∑ q, wAdj A bd p q) * x p ^ 2) =
      (∑ p, if bd p then 0 else c * x p ^ 2)
        - ∑ p, (∑ q, wAdj A bd p q) * x p ^ 2 := by
    rw [← Finset.sum_sub_distrib]
    refine Finset.sum_congr rfl fun p _ => ?_
    by_cases hp : bd p
    · rw [if_pos hp, if_pos hp, hsumw_bd p hp]
      ring
    · rw [if_neg hp, if_neg hp]
      ring
  rw [hQ, hT, hE]
  ring

/-- The generic positive-definiteness lemma. -/
theorem posDef_of_gridLike {N : ℕ} (A : Matrix (Fin N) (Fin N) ℝ) (bd : Fin N → Prop)
    (c : ℝ) (μ : Fin N → ℕ)
    (hsym : ∀ p q, A p q = A q p)
    (hbd : ∀ p q, bd p ∨ bd q → A p q = if p = q then 1 else 0)
    (hdiag : ∀ p, ¬bd p → A p p = c)
    (hoff : ∀ p q, ¬bd p → ¬bd q → p ≠ q → A p q = -1 ∨ A p q = 0)
    (hdeg : ∀ p, ¬bd p → (∑ q, wAdj A bd p q) ≤ c)
    (hesc : ∀ p, ¬bd p → (∑ q, wAdj A bd p q) < c ∨
      ∃ q, ¬bd q ∧ A p q ≠ 0 ∧ μ q < μ p) :
    A.PosDef := by
  constructor
  · -- hermitian
    refine Matrix.ext fun i j => ?_
    rw [Matrix.conjTranspose_apply, star_trivial, hsym j i]
  · intro x hx
    rw [show star x = x from funext fun i => star_trivial (x i)]
    set S := ∑ p, if bd p then x p ^ 2 else 0 with hSdef
    set T := ∑ p, if bd p then 0 else (c - ∑ q, wAdj A bd p q) * x p ^ 2 with hTdef
    set E := ∑ p, ∑ q, wAdj A bd p q * (x p - x q) ^ 2 with hEdef
    have hid : Matrix.dotProduct x (A.mulVec x) = S + T + (1 / 2) * E :=
      gridLike_quadForm A bd c hsym hbd hdiag hoff x
    have hS_nonneg : 0 ≤ S := by
      refine Finset.sum_nonneg fun p _ => ?_
      split
      · exact sq_nonneg _
      · exact le_refl 0
    have hT_nonneg : 0 ≤ T := by
      refine Finset.sum_nonneg fun p _ => ?_
      split
      · exact le_refl 0
      · next hp => exact mul_nonneg (sub_nonneg.mpr (hdeg p hp)) (sq_nonneg _)
    have hE_nonneg : 0 ≤ E := by
      refine Finset.sum_nonneg fun p _ => Finset.sum_nonneg fun q _ => ?_
      exact mul_nonneg (wAdj_nonneg A bd p q) (sq_nonneg _)
    have hQ_nonneg : 0 ≤ Matrix.dotProduct x (A.mulVec x) := by
      rw [hid]; linarith
    rcases eq_or_lt_of_le hQ_nonneg with hQ0 | hQpos
    · -- the quadratic form vanishes: show x = 0, contradicting hx
      exfalso
      apply hx
      have hS0 : S = 0 := by linarith [hid ▸ hQ0.symm, hT_nonneg, hE_nonneg]
      have hT0 : T = 0 := by linarith [hid ▸ hQ0.symm, hS_nonneg, hE_nonneg]
      have hE0 : E = 0 := by linarith [hid ▸ hQ0.symm, hS_nonneg, hT_nonneg]
      rw [hSdef] at hS0
      rw [hTdef] at hT0
      rw [hEdef] at hE0
      have hSz : ∀ p, bd p → x p = 0 := by
        intro p hp
        have h2 := (Finset.sum_eq_zero_iff_of_nonneg (fun q _ => by
          split
          · exact sq_nonneg (x q)
          · exact le_refl 0)).mp hS0 p (Finset.mem_univ p)
        rw [if_pos hp] at h2
        exact pow_eq_zero_iff (n := 2) (by norm_num) |>.mp h2
      have hTz : ∀ p, ¬bd p → (∑ q, wAdj A bd p q) < c → x p = 0 := by
        intro p hp hlt
        have h2 := (Finset.sum_eq_zero_iff_of_nonneg (fun q _ => by
          split
          · exact le_refl 0
          · next hq => exact mul_nonneg (sub_nonneg.mpr (hdeg q hq)) (sq_nonneg _))).mp
          hT0 p (Finset.mem_univ p)
        rw [if_neg hp] at h2
        have h3 : x p ^ 2 = 0 := by
          rcases mul_eq_zero.mp h2 with h | h
          · exfalso; linarith
          · exact h
        exact pow_eq_zero_iff (n := 2) (by norm_num) |>.mp h3
      have hEz : ∀ p q, ¬bd p → ¬bd q → p ≠ q → A p q ≠ 0 → x p = x q := by
        intro p q hp hq hpq hA
        have h1 := (Finset.sum_eq_zero_iff_of_nonneg (fun r _ =>
          Finset.sum_nonneg fun s _ =>
            mul_nonneg (wAdj_nonneg A bd r s) (sq_nonneg _))).mp hE0 p (Finset.mem_univ p)
        have h2 := (Finset.sum_eq_zero_iff_of_nonneg (fun s _ =>
          mul_nonneg (wAdj_nonneg A bd p s) (sq_nonneg _))).mp h1 q (Finset.mem_univ q)
        rw [wAdj_eq_one A bd hp hq hpq hA, one_mul] at h2
        have h3 := pow_eq_zero_iff (n := 2) (by norm_num) |>.mp h2
        linarith [sub_eq_zero.mp h3]
      have hint : ∀ m p, μ p ≤ m → ¬bd p → x p = 0 := by
        intro m
        induction m with
        | zero =>
          intro p hμ hp
          rcases hesc p hp with hlt | ⟨q, hq, hA, hμq⟩
          · exact hTz p hp hlt
          · omega
        | succ m ih =>
          intro p hμ hp
          rcases hesc p hp with hlt | ⟨q, hq, hA, hμq⟩
          · exact hTz p hp hlt
          · have hpq : p ≠ q := by
              intro he
              rw [he] at hμq
              omega
            have hxq : x q = 0 := ih q (by omega) hq
            rw [hEz p q hp hq hpq hA, hxq]
      funext p
      by_cases hp : bd p
      · exact hSz p hp
      · exact hint (μ p) p (le_refl _) hp
    · exact hQpos

end GridPosDef

/-! #### Instantiation for the assembled 2D matrix -/

lemma adjacent2d_symm (n p q : ℕ) : adjacent2d n p q ↔ adjacent2d n q p := by
  unfold adjacent2d; omega

lemma adjacent3d_symm (n p q : ℕ) : adjacent3d n p q ↔ adjacent3d n q p := by
  unfold adjacent3d; omega

lemma bool_eq_false_of_not_true {b : Bool} (h : ¬b = true) : b = false := by
  revert h; cases b <;> simp

lemma isBoundary2d_eq_false_iff (n x : ℕ) : isBoundary2d n x = false ↔
    x / n ≠ 0 ∧ x / n ≠ n - 1 ∧ x % n ≠ 0 ∧ x % n ≠ n - 1 := by
  simp only [isBoundary2d, Bool.or_eq_false_iff, beq_eq_false_iff_ne, ne_eq]
  tauto

lemma length_get_neighbors_2d_le (p n : ℕ) : (get_neighbors_2d p n).length ≤ 4 := by
  simp only [get_neighbors_2d, List.length_append, length_ite_singleton]
  have b1 : (if 0 < p % n then 1 else 0) ≤ 1 := by split <;> omega
  have b2 : (if p % n < n - 1 then 1 else 0) ≤ 1 := by split <;> omega
  have b3 : (if 0 < p / n then 1 else 0) ≤ 1 := by split <;> omega
  have b4 : (if p / n < n - 1 then 1 else 0) ≤ 1 := by split <;> omega
  omega

lemma mem_get_neighbors_2d_vals {n p q : ℕ} (h : q ∈ get_neighbors_2d p n) :
    q = p - 1 ∨ q = p + 1 ∨ q = p - n ∨ q = p + n := by
  simp only [get_neighbors_2d, List.mem_append, mem_ite_singleton] at h
  tauto

lemma matrix_2d_symm {n p q : ℕ} (hp : p < n * n) (hq : q < n * n) :
    matrix_2d n p q = matrix_2d n q p := by
  unfold matrix_2d
  by_cases hb : isBoundary2d n p = true ∨ isBoundary2d n q = true
  · rw [if_pos hb, if_pos (Or.symm hb)]
    by_cases hpq : p = q
    · subst hpq; rfl
    · rw [if_neg hpq, if_neg (fun h => hpq h.symm)]
  · obtain ⟨hbp, hbq⟩ := not_or.mp hb
    rw [if_neg hb, if_neg (fun h => hb (Or.symm h))]
    unfold A1_2d
    rw [if_neg hbp, if_neg hbq]
    by_cases hpq : q = p
    · subst hpq; rfl
    · have hmem : q ∈ get_neighbors_2d p n ↔ p ∈ get_neighbors_2d q n := by
        rw [mem_get_neighbors_2d hp q, mem_get_neighbors_2d hq p]
        constructor
        · rintro ⟨_, h2⟩; exact ⟨hp, (adjacent2d_symm n p q).mp h2⟩
        · rintro ⟨_, h2⟩; exact ⟨hq, (adjacent2d_symm n q p).mp h2⟩
      have e1 : (if q = p then (4 : ℤ) else if q ∈ get_neighbors_2d p n then -1 else 0)
          = if q ∈ get_neighbors_2d p n then -1 else 0 := if_neg hpq
      have e2 : (if p = q then (4 : ℤ) else if p ∈ get_neighbors_2d q n then -1 else 0)
          = if p ∈ get_neighbors_2d q n then -1 else 0 := if_neg (fun h => hpq h.symm)
      rw [e1, e2]
      exact if_congr hmem rfl rfl

lemma matrixFin_2d_interior_mem {n : ℕ} {p q : Fin (n * n)}
    (hbp : ¬isBoundary2d n p.val = true) (hpq : p ≠ q)
    (hA : matrixFin (n * n) (matrix_2d n) p q ≠ 0) :
    q.val ∈ get_neighbors_2d p.val n := by
  by_contra hmem
  apply hA
  show ((matrix_2d n p.val q.val : ℤ) : ℝ) = 0
  by_cases hbq : isBoundary2d n q.val = true
  · unfold matrix_2d
    rw [if_pos (Or.inr hbq), if_neg (fun h => hpq (Fin.ext h))]
    norm_num
  · unfold matrix_2d A1_2d
    rw [if_neg (by tauto), if_neg hbp,
      if_neg (fun h : q.val = p.val => hpq (Fin.ext h).symm), if_neg hmem]
    norm_num

theorem matrix_2d_posDef (n : ℕ) : (matrixFin (n * n) (matrix_2d n)).PosDef := by
  classical
  apply posDef_of_gridLike (matrixFin (n * n) (matrix_2d n))
    (fun p => isBoundary2d n p.val = true) 4 (fun p => n * n - p.val)
  · -- symmetry
    intro p q
    show ((matrix_2d n p.val q.val : ℤ) : ℝ) = ((matrix_2d n q.val p.val : ℤ) : ℝ)
    rw [matrix_2d_symm p.isLt q.isLt]
  · -- boundary rows and columns
    intro p q h
    show ((matrix_2d n p.val q.val : ℤ) : ℝ) = _
    unfold matrix_2d
    rw [if_pos h]
    by_cases hpq : p = q
    · subst hpq
      rw [if_pos rfl, if_pos rfl]
      norm_num
    · rw [if_neg (fun hv => hpq (Fin.ext hv)), if_neg hpq]
      norm_num
  · -- interior diagonal
    intro p hp
    show ((matrix_2d n p.val p.val : ℤ) : ℝ) = 4
    unfold matrix_2d A1_2d
    rw [if_neg (by tauto), if_neg hp, if_pos rfl]
    norm_num
  · -- interior off-diagonal entries
    intro p q hbp hbq hpq
    show ((matrix_2d n p.val q.val : ℤ) : ℝ) = -1 ∨ ((matrix_2d n p.val q.val : ℤ) : ℝ) = 0
    unfold matrix_2d A1_2d
    rw [if_neg (by tauto), if_neg hbp,
      if_neg (fun h : q.val = p.val => hpq (Fin.ext h).symm)]
    split
    · left; norm_num
    · right; norm_num
  · -- interior degree is at most 4
    intro p hp
    rw [← degI_eq_sum]
    have hdegle : degI (matrixFin (n * n) (matrix_2d n))
        (fun p => isBoundary2d n p.val = true) p ≤ 4 := by
      unfold degI
      refine le_trans (le_trans (Finset.card_le_card_of_injOn (fun q => q.val) ?_ ?_)
        ((get_neighbors_2d p.val n).toFinset_card_le)) (length_get_neighbors_2d_le p.val n)
      · intro q hq
        simp only [Finset.mem_filter] at hq
        obtain ⟨_, hbp', _, hpq, hA⟩ := hq
        rw [List.mem_toFinset]
        exact matrixFin_2d_interior_mem hbp' hpq hA
      · intro a _ b _ hab
        exact Fin.ext hab
    exact_mod_cast hdegle
  · -- escape: either slack or an interior neighbor with larger linear index
    intro p hp
    obtain ⟨h1, h2, h3, h4⟩ :=
      (isBoundary2d_eq_false_iff n p.val).mp (bool_eq_false_of_not_true hp)
    have hpi : p.val < n * n := p.isLt
    have hn : 0 < n := pos_of_lt_mul hpi
    have hilt : p.val / n < n := div_lt_of_lt_mul_self hpi
    have hjlt : p.val % n < n := Nat.mod_lt _ hn
    have hdm : p.val = (p.val / n) * n + p.val % n := decompose2 n p.val
    have he : p.val + n = (p.val / n + 1) * n + p.val % n := by
      have hr : (p.val / n + 1) * n = (p.val / n) * n + n := by ring
      omega
    have hd : (p.val + n) / n = p.val / n + 1 := by rw [he, add_mul_div_eq _ hjlt]
    have hm : (p.val + n) % n = p.val % n := by rw [he, add_mul_mod_eq _ hjlt]
    by_cases hcase : p.val / n < n - 2
    · right
      have hq : p.val + n < n * n := by
        have h5 := index_lt (show p.val / n + 1 < n by omega) hjlt
        omega
      have hbqf : isBoundary2d n (p.val + n) = false := by
        rw [isBoundary2d_eq_false_iff]
        refine ⟨?_, ?_, ?_, ?_⟩
        · rw [hd]; exact Nat.succ_ne_zero _
        · rw [hd]; omega
        · rw [hm]; exact h3
        · rw [hm]; exact h4
      refine ⟨⟨p.val + n, hq⟩, ?_, ?_, ?_⟩
      · show ¬isBoundary2d n (p.val + n) = true
        simp [hbqf]
      · show ((matrix_2d n p.val (p.val + n) : ℤ) : ℝ) ≠ 0
        unfold matrix_2d A1_2d
        rw [if_neg (not_or.mpr ⟨by simpa using hp, by simp [hbqf]⟩),
          if_neg (by simpa using hp),
          if_neg (show ¬p.val + n = p.val by omega),
          if_pos ((mem_get_neighbors_2d hpi _).mpr ⟨hq, Or.inr ⟨hm, Or.inl hd⟩⟩)]
        norm_num
      · show n * n - (p.val + n) < n * n - p.val
        omega
    · left
      rw [← degI_eq_sum]
      have hieq : p.val / n = n - 2 := by omega
      have hn3 : 3 ≤ n := by omega
      have hbtrue : isBoundary2d n (p.val + n) = true := by
        simp only [isBoundary2d, Bool.or_eq_true, beq_iff_eq]
        rw [hd]
        omega
      have h6 : ({p.val - 1, p.val + 1, p.val - n} : Finset ℕ).card ≤ 3 := by
        refine le_trans (Finset.card_insert_le _ _) ?_
        have h7 := Finset.card_insert_le (p.val + 1) ({p.val - n} : Finset ℕ)
        simp only [Finset.card_singleton] at h7 ⊢
        omega
      have hdegle : degI (matrixFin (n * n) (matrix_2d n))
          (fun p => isBoundary2d n p.val = true) p ≤ 3 := by
        unfold degI
        refine le_trans ?_ h6
        refine Finset.card_le_card_of_injOn (fun q => q.val) ?_ ?_
        · intro q hq
          simp only [Finset.mem_filter] at hq
          obtain ⟨_, hbp', hbq', hpq, hA⟩ := hq
          have hmem := matrixFin_2d_interior_mem hbp' hpq hA
          have hvals := mem_get_neighbors_2d_vals hmem
          have hne : q.val ≠ p.val + n := by
            intro hqv
            apply hbq'
            rw [hqv]
            exact hbtrue
          simp only [Finset.mem_insert, Finset.mem_singleton]
          omega
        · intro a _ b _ hab
          exact Fin.ext hab
      have hcast : ((degI (matrixFin (n * n) (matrix_2d n))
          (fun p => isBoundary2d n p.val = true) p : ℕ) : ℝ) ≤ 3 := by
        exact_mod_cast hdegle
      linarith

/-! #### Instantiation for the assembled 3D matrix -/

lemma isBoundary3d_eq_false_iff (n x : ℕ) : isBoundary3d n x = false ↔
    x / (n * n) ≠ 0 ∧ x / (n * n) ≠ n - 1 ∧ (x % (n * n)) / n ≠ 0 ∧
      (x % (n * n)) / n ≠ n - 1 ∧ x % n ≠ 0 ∧ x % n ≠ n - 1 := by
  simp only [isBoundary3d, Bool.or_eq_false_iff, beq_eq_false_iff_ne, ne_eq]
  tauto

lemma length_get_neighbors_3d_le (p n : ℕ) : (get_neighbors_3d p n).length ≤ 6 := by
  simp only [get_neighbors_3d, List.length_append, length_ite_singleton]
  have b1 : (if 0 < p % n then 1 else 0) ≤ 1 := by split <;> omega
  have b2 : (if p % n < n - 1 then 1 else 0) ≤ 1 := by split <;> omega
  have b3 : (if 0 < p % (n * n) / n then 1 else 0) ≤ 1 := by split <;> omega
  have b4 : (if p % (n * n) / n < n - 1 then 1 else 0) ≤ 1 := by split <;> omega
  have b5 : (if 0 < p / (n * n) then 1 else 0) ≤ 1 := by split <;> omega
  have b6 : (if p / (n * n) < n - 1 then 1 else 0) ≤ 1 := by split <;> omega
  omega

lemma mem_get_neighbors_3d_vals {n p q : ℕ} (h : q ∈ get_neighbors_3d p n) :
    q = p - 1 ∨ q = p + 1 ∨ q = p - n ∨ q = p + n ∨ q = p - n * n ∨ q = p + n * n := by
  simp only [get_neighbors_3d, List.mem_append, mem_ite_singleton] at h
  tauto

lemma matrix_3d_symm {n p q : ℕ} (hp : p < n * n * n) (hq : q < n * n * n) :
    matrix_3d n p q = matrix_3d n q p := by
  unfold matrix_3d
  by_cases hb : isBoundary3d n p = true ∨ isBoundary3d n q = true
  · rw [if_pos hb, if_pos (Or.symm hb)]
    by_cases hpq : p = q
    · subst hpq; rfl
    · rw [if_neg hpq, if_neg (fun h => hpq h.symm)]
  · obtain ⟨hbp, hbq⟩ := not_or.mp hb
    rw [if_neg hb, if_neg (fun h => hb (Or.symm h))]
    unfold A1_3d
    rw [if_neg hbp, if_neg hbq]
    by_cases hpq : q = p
    · subst hpq; rfl
    · have hmem : q ∈ get_neighbors_3d p n ↔ p ∈ get_neighbors_3d q n := by
        rw [mem_get_neighbors_3d hp q, mem_get_neighbors_3d hq p]
        constructor
        · rintro ⟨_, h2⟩; exact ⟨hp, (adjacent3d_symm n p q).mp h2⟩
        · rintro ⟨_, h2⟩; exact ⟨hq, (adjacent3d_symm n q p).mp h2⟩
      have e1 : (if q = p then (6 : ℤ) else if q ∈ get_neighbors_3d p n then -1 else 0)
          = if q ∈ get_neighbors_3d p n then -1 else 0 := if_neg hpq
      have e2 : (if p = q then (6 : ℤ) else if p ∈ get_neighbors_3d q n then -1 else 0)
          = if p ∈ get_neighbors_3d q n then -1 else 0 := if_neg (fun h => hpq h.symm)
      rw [e1, e2]
      exact if_congr hmem rfl rfl

lemma matrixFin_3d_interior_mem {n : ℕ} {p q : Fin (n * n * n)}
    (hbp : ¬isBoundary3d n p.val = true) (hpq : p ≠ q)
    (hA : matrixFin (n * n * n) (matrix_3d n) p q ≠ 0) :
    q.val ∈ get_neighbors_3d p.val n := by
  by_contra hmem
  apply hA
  show ((matrix_3d n p.val q.val : ℤ) : ℝ) = 0
  by_cases hbq : isBoundary3d n q.val = true
  · unfold matrix_3d
    rw [if_pos (Or.inr hbq), if_neg (fun h => hpq (Fin.ext h))]
    norm_num
  · unfold matrix_3d A1_3d
    rw [if_neg (by tauto), if_neg hbp,
      if_neg (fun h : q.val = p.val => hpq (Fin.ext h).symm), if_neg hmem]
    norm_num

theorem matrix_3d_posDef (n : ℕ) : (matrixFin (n * n * n) (matrix_3d n)).PosDef := by
  classical
  apply posDef_of_gridLike (matrixFin (n * n * n) (matrix_3d n))
    (fun p => isBoundary3d n p.val = true) 6 (fun p => n * n * n - p.val)
  · -- symmetry
    intro p q
    show ((matrix_3d n p.val q.val : ℤ) : ℝ) = ((matrix_3d n q.val p.val : ℤ) : ℝ)
    rw [matrix_3d_symm p.isLt q.isLt]
  · -- boundary rows and columns
    intro p q h
    show ((matrix_3d n p.val q.val : ℤ) : ℝ) = _
    unfold matrix_3d
    rw [if_pos h]
    by_cases hpq : p = q
    · subst hpq
      rw [if_pos rfl, if_pos rfl]
      norm_num
    · rw [if_neg (fun hv => hpq (Fin.ext hv)), if_neg hpq]
      norm_num
  · -- interior diagonal
    intro p hp
    show ((matrix_3d n p.val p.val : ℤ) : ℝ) = 6
    unfold matrix_3d A1_3d
    rw [if_neg (by tauto), if_neg hp, if_pos rfl]
    norm_num
  · -- interior off-diagonal entries
    intro p q hbp hbq hpq
    show ((matrix_3d n p.val q.val : ℤ) : ℝ) = -1 ∨ ((matrix_3d n p.val q.val : ℤ) : ℝ) = 0
    unfold matrix_3d A1_3d
    rw [if_neg (by tauto), if_neg hbp,
      if_neg (fun h : q.val = p.val => hpq (Fin.ext h).symm)]
    split
    · left; norm_num
    · right; norm_num
  · -- interior degree is at most 6
    intro p hp
    rw [← degI_eq_sum]
    have hdegle : degI (matrixFin (n * n * n) (matrix_3d n))
        (fun p => isBoundary3d n p.val = true) p ≤ 6 := by
      unfold degI
      refine le_trans (le_trans (Finset.card_le_card_of_injOn (fun q => q.val) ?_ ?_)
        ((get_neighbors_3d p.val n).toFinset_card_le)) (length_get_neighbors_3d_le p.val n)
      · intro q hq
        simp only [Finset.mem_filter] at hq
        obtain ⟨_, hbp', _, hpq, hA⟩ := hq
        rw [List.mem_toFinset]
        exact matrixFin_3d_interior_mem hbp' hpq hA
      · intro a _ b _ hab
        exact Fin.ext hab
    exact_mod_cast hdegle
  · -- escape along the first coordinate
    intro p hp
    obtain ⟨h1, h2, h3, h4, h5, h6⟩ :=
      (isBoundary3d_eq_false_iff n p.val).mp (bool_eq_false_of_not_true hp)
    have hpi : p.val < n * n * n := p.isLt
    obtain ⟨hilt, hjlt, hklt, hdm⟩ := coords3 hpi
    have hn : 0 < n := by omega
    have hr : (p.val / (n * n) + 1) * (n * n) = (p.val / (n * n)) * (n * n) + n * n := by
      ring
    have he : p.val + n * n =
        (p.val / (n * n) + 1) * (n * n) + ((p.val % (n * n)) / n) * n + p.val % n := by
      omega
    obtain ⟨hd, hmj, hmk⟩ := decode3 (n := n) (p.val / (n * n) + 1) hjlt hklt
    rw [← he] at hd hmj hmk
    by_cases hcase : p.val / (n * n) < n - 2
    · right
      have hq : p.val + n * n < n * n * n := by
        have h7 := index3_lt (show p.val / (n * n) + 1 < n by omega) hjlt hklt
        omega
      have hbqf : isBoundary3d n (p.val + n * n) = false := by
        rw [isBoundary3d_eq_false_iff]
        refine ⟨?_, ?_, ?_, ?_, ?_, ?_⟩
        · rw [hd]; exact Nat.succ_ne_zero _
        · rw [hd]
          obtain ⟨i, hi⟩ : ∃ i, i = p.val / (n * n) := ⟨_, rfl⟩
          rw [← hi] at hcase ⊢
          omega
        · rw [hmj]; exact h3
        · rw [hmj]; exact h4
        · rw [hmk]; exact h5
        · rw [hmk]; exact h6
      refine ⟨⟨p.val + n * n, hq⟩, ?_, ?_, ?_⟩
      · show ¬isBoundary3d n (p.val + n * n) = true
        simp [hbqf]
      · show ((matrix_3d n p.val (p.val + n * n) : ℤ) : ℝ) ≠ 0
        unfold matrix_3d A1_3d
        rw [if_neg (not_or.mpr ⟨by simpa using hp, by simp [hbqf]⟩),
          if_neg (by simpa using hp),
          if_neg (show ¬p.val + n * n = p.val by
            have hnn : 0 < n * n := Nat.mul_pos hn hn
            omega),
          if_pos ((mem_get_neighbors_3d hpi _).mpr
            ⟨hq, Or.inr (Or.inr ⟨hmj, hmk, Or.inl hd⟩)⟩)]
        norm_num
      · show n * n * n - (p.val + n * n) < n * n * n - p.val
        have hnn : 0 < n * n := Nat.mul_pos hn hn
        omega
    · left
      rw [← degI_eq_sum]
      have hieq : p.val / (n * n) = n - 2 := by omega
      have hn3 : 3 ≤ n := by omega
      have hbtrue : isBoundary3d n (p.val + n * n) = true := by
        simp only [isBoundary3d, Bool.or_eq_true, beq_iff_eq]
        rw [hd]
        omega
      have h7 : ({p.val - 1, p.val + 1, p.val - n, p.val + n, p.val - n * n} :
          Finset ℕ).card ≤ 5 := by
        refine le_trans (Finset.card_insert_le _ _) ?_
        have c2 := Finset.card_insert_le (p.val + 1)
          ({p.val - n, p.val + n, p.val - n * n} : Finset ℕ)
        have c3 := Finset.card_insert_le (p.val - n)
          ({p.val + n, p.val - n * n} : Finset ℕ)
        have c4 := Finset.card_insert_le (p.val + n) ({p.val - n * n} : Finset ℕ)
        simp only [Finset.card_singleton] at c2 c3 c4 ⊢
        omega
      have hdegle : degI (matrixFin (n * n * n) (matrix_3d n))
          (fun p => isBoundary3d n p.val = true) p ≤ 5 := by
        unfold degI
        refine le_trans ?_ h7
        refine Finset.card_le_card_of_injOn (fun q => q.val) ?_ ?_
        · intro q hq
          simp only [Finset.mem_filter] at hq
          obtain ⟨_, hbp', hbq', hpq, hA⟩ := hq
          have hmem := matrixFin_3d_interior_mem hbp' hpq hA
          have hvals := mem_get_neighbors_3d_vals hmem
          have hne : q.val ≠ p.val + n * n := by
            intro hqv
            apply hbq'
            rw [hqv]
            exact hbtrue
          simp only [Finset.mem_insert, Finset.mem_singleton]
          omega
        · intro a _ b _ hab
          exact Fin.ext hab
      have hcast : ((degI (matrixFin (n * n * n) (matrix_3d n))
          (fun p => isBoundary3d n p.val = true) p : ℕ) : ℝ) ≤ 5 := by
        exact_mod_cast hdegle
      linarith

/-- **C3.** For every `n ≥ 1` and `D ∈ {2, 3}`, the matrix `A` returned by
`build_matrix_and_rhs` is exactly symmetric (`A = Aᵗ`) and positive definite,
with all eigenvalues strictly positive. -/
theorem C3_assembled_matrix_symmetric_posDef {n : ℕ} (hn : 1 ≤ n) :
    ((matrixFin (n * n) (matrix_2d n)).IsSymm ∧
      (matrixFin (n * n) (matrix_2d n)).PosDef ∧
      ∀ (h : (matrixFin (n * n) (matrix_2d n)).IsHermitian) i, 0 < h.eigenvalues i) ∧
      ((matrixFin (n * n * n) (matrix_3d n)).IsSymm ∧
        (matrixFin (n * n * n) (matrix_3d n)).PosDef ∧
        ∀ (h : (matrixFin (n * n * n) (matrix_3d n)).IsHermitian) i,
          0 < h.eigenvalues i) := by
  constructor
  · refine ⟨?_, matrix_2d_posDef n, ?_⟩
    · unfold Matrix.IsSymm
      refine Matrix.ext fun i j => ?_
      rw [Matrix.transpose_apply]
      show ((matrix_2d n j.val i.val : ℤ) : ℝ) = ((matrix_2d n i.val j.val : ℤ) : ℝ)
      rw [matrix_2d_symm j.isLt i.isLt]
    · intro h i
      exact (matrix_2d_posDef n).eigenvalues_pos i
  · refine ⟨?_, matrix_3d_posDef n, ?_⟩
    · unfold Matrix.IsSymm
      refine Matrix.ext fun i j => ?_
      rw [Matrix.transpose_apply]
      show ((matrix_3d n j.val i.val : ℤ) : ℝ) = ((matrix_3d n i.val j.val : ℤ) : ℝ)
      rw [matrix_3d_symm j.isLt i.isLt]
    · intro h i
      exact (matrix_3d_posDef n).eigenvalues_pos i

/-- Witness for C3 at `n = 1`. -/
theorem C3_assembled_matrix_symmetric_posDef_witness :
    1 ≤ 1 ∧
      (((matrixFin (1 * 1) (matrix_2d 1)).IsSymm ∧
        (matrixFin (1 * 1) (matrix_2d 1)).PosDef ∧
        ∀ (h : (matrixFin (1 * 1) (matrix_2d 1)).IsHermitian) i, 0 < h.eigenvalues i) ∧
        ((matrixFin (1 * 1 * 1) (matrix_3d 1)).IsSymm ∧
          (matrixFin (1 * 1 * 1) (matrix_3d 1)).PosDef ∧
          ∀ (h : (matrixFin (1 * 1 * 1) (matrix_3d 1)).IsHermitian) i,
            0 < h.eigenvalues i)) :=
  ⟨le_refl 1, C3_assembled_matrix_symmetric_posDef (le_refl 1)⟩

end THE
